import Mathlib

/-!
# Verification of the HyperPrune Tic-Tac-Toe engine

This file is a shallow embedding, in Lean 4, of the core of the HyperPrune
repository: the bitboard position representation (`src/TicTacToe/tic_tac_toe.c`
and `tic_tac_toe.h`), the Zobrist-hashed transposition table
(`src/MiniMax/transposition.c`) and the minimax/alpha-beta search
(`src/MiniMax/mini_max.c`), at the default compile-time configuration
`BOARD_SIZE = 3`.

Machine integers are modelled as `Nat` (for the `uint64_t` bitmasks and hashes,
with explicit two's-complement arithmetic where the C code truncates) and `Int`
(for the C `int` scores).  The C recursion, which terminates because every
recursive call fills one more cell of a finite board, is modelled with an
explicit fuel parameter; all theorems assume enough fuel for the position at
hand (`MAX_MOVES + 1` always suffices, and is what the embedded entry point
passes).  The global transposition table of the C code is threaded through the
functions as an explicit `Option TTable` state ( `none` is the
"caching disabled" state produced by `transposition_table_init(0)` or by a
failed allocation).  The Zobrist key tables, generated once at startup from a
seeded SplitMix64 stream, are passed as an explicit `ZobristKeys` record; the
concrete SplitMix64 generation is also embedded.
-/

namespace HyperPrune

/-- `BOARD_SIZE` from tic_tac_toe.h: default compile-time configuration. -/
def BOARD_SIZE : Nat := 3

/-- `MAX_MOVES = BOARD_SIZE * BOARD_SIZE`. -/
def MAX_MOVES : Nat := BOARD_SIZE * BOARD_SIZE

/-- The bitboard: two `uint64_t` occupancy masks, one per player
(tic_tac_toe.h, `Bitboard`). -/
structure Bitboard where
  x_pieces : Nat
  o_pieces : Nat
deriving DecidableEq

/-- `POS_TO_BIT(row, col)` from tic_tac_toe.h. -/
def POS_TO_BIT (row col : Nat) : Nat := row * BOARD_SIZE + col

/-- `BIT_MASK(row, col)` from tic_tac_toe.h. -/
def BIT_MASK (row col : Nat) : Nat := 1 <<< POS_TO_BIT row col

/-- The value of `~m` for a 64-bit unsigned integer `m`. -/
def COMPL64 (m : Nat) : Nat := (2 ^ 64 - 1) ^^^ m

/-- `bitboard_make_move` (tic_tac_toe.h): set the bit for `player` at
`(row, col)`. -/
def bitboard_make_move (b : Bitboard) (row col : Nat) (player : Char) : Bitboard :=
  let mask := BIT_MASK row col
  if player = 'x' then { b with x_pieces := b.x_pieces ||| mask }
  else { b with o_pieces := b.o_pieces ||| mask }

/-- `bitboard_unmake_move` (tic_tac_toe.h): clear the bit for `player` at
`(row, col)` (`pieces &= ~mask` on 64-bit masks). -/
def bitboard_unmake_move (b : Bitboard) (row col : Nat) (player : Char) : Bitboard :=
  let mask := BIT_MASK row col
  if player = 'x' then { b with x_pieces := b.x_pieces &&& COMPL64 mask }
  else { b with o_pieces := b.o_pieces &&& COMPL64 mask }

/-- `bitboard_is_empty` (tic_tac_toe.h). -/
def bitboard_is_empty (b : Bitboard) (row col : Nat) : Bool :=
  (b.x_pieces ||| b.o_pieces) &&& BIT_MASK row col = 0

/-- The win-line masks computed by `init_win_masks` (tic_tac_toe.c): all rows,
all columns, the main diagonal and the anti-diagonal, in that order. -/
def win_masks : List Nat :=
  ((List.range BOARD_SIZE).map fun r =>
    (List.range BOARD_SIZE).foldl (fun m c => m ||| BIT_MASK r c) 0) ++
  ((List.range BOARD_SIZE).map fun c =>
    (List.range BOARD_SIZE).foldl (fun m r => m ||| BIT_MASK r c) 0) ++
  [(List.range BOARD_SIZE).foldl (fun m i => m ||| BIT_MASK i i) 0,
   (List.range BOARD_SIZE).foldl (fun m i => m ||| BIT_MASK i (BOARD_SIZE - 1 - i)) 0]

/-- `bitboard_has_won` (tic_tac_toe.c): a player has won iff their pieces fully
cover one of the precomputed win-line masks. -/
def bitboard_has_won (player_pieces : Nat) : Bool :=
  win_masks.any fun w => player_pieces &&& w = w

/-- `bitboard_did_last_move_win` (tic_tac_toe.c): the restricted check that
only tests the row, the column and (conditionally) the diagonal lines passing
through `(row, col)`; indexes the same `win_masks` array as the C code. -/
def bitboard_did_last_move_win (player_pieces : Nat) (row col : Nat) : Bool :=
  if player_pieces &&& win_masks.getD row 0 = win_masks.getD row 0 then true
  else if player_pieces &&& win_masks.getD (BOARD_SIZE + col) 0 =
      win_masks.getD (BOARD_SIZE + col) 0 then true
  else if row = col ∧ player_pieces &&& win_masks.getD (2 * BOARD_SIZE) 0 =
      win_masks.getD (2 * BOARD_SIZE) 0 then true
  else if row + col = BOARD_SIZE - 1 ∧
      player_pieces &&& win_masks.getD (2 * BOARD_SIZE + 1) 0 =
      win_masks.getD (2 * BOARD_SIZE + 1) 0 then true
  else false

/-- `VALID_POSITIONS_MASK` from mini_max.c (`MAX_MOVES = 9 ≠ 64`, so the
`(1ULL << MAX_MOVES) - 1` branch applies). -/
def VALID_POSITIONS_MASK : Nat := (1 <<< MAX_MOVES) - 1

/-- Well-formed board: both occupancy masks only use the `MAX_MOVES` board
bits.  This is the data-model invariant of spec §3 (bits outside
`[0, side²)` are not meaningful); every position the engine is ever run on,
and every position it reaches by `bitboard_make_move` on listed empty cells,
satisfies it. -/
def wfBoard (b : Bitboard) : Prop :=
  b.x_pieces < 2 ^ MAX_MOVES ∧ b.o_pieces < 2 ^ MAX_MOVES

instance (b : Bitboard) : Decidable (wfBoard b) := by
  unfold wfBoard; infer_instance

/-- `findEmptySpots` (mini_max.c): collect all empty cells, scanning bit
indices in increasing order (the portable `#else` loop of the C code; the
`CTZ64` loop visits set bits in the same increasing order). -/
def findEmptySpots (b : Bitboard) : List (Nat × Nat) :=
  let empty := COMPL64 (b.x_pieces ||| b.o_pieces) &&& VALID_POSITIONS_MASK
  (List.range MAX_MOVES).filterMap fun i =>
    if empty &&& (1 <<< i) ≠ 0 then some (i / BOARD_SIZE, i % BOARD_SIZE) else none

/-- Number of empty cells of a position; the recursion depth measure. -/
def emptyCount (b : Bitboard) : Nat := (findEmptySpots b).length

/-- `boardScore` (mini_max.c): terminal evaluation.  `+100` if the AI has a
completed line, `-100` if the opponent has one, `0` for a full board, `1`
(`CONTINUE_SCORE`) otherwise. -/
def boardScore (b : Bitboard) (aiPlayer : Char) : Int :=
  let ai_pieces := if aiPlayer = 'x' then b.x_pieces else b.o_pieces
  if bitboard_has_won ai_pieces then 100
  else
    let opponent_pieces := if aiPlayer = 'x' then b.o_pieces else b.x_pieces
    if bitboard_has_won opponent_pieces then -100
    else if b.x_pieces ||| b.o_pieces = VALID_POSITIONS_MASK then 0
    else 1

/-! ## Transposition table (transposition.c) -/

/-- `TranspositionTableNodeType` (transposition.h). -/
inductive TranspositionTableNodeType where
  | EXACT
  | LOWERBOUND
  | UPPERBOUND
deriving DecidableEq

/-- `TranspositionTableEntry` (transposition.h).  The C struct also carries a
`depth` field that `transposition_table_store` never writes (it stays at the
`calloc` zero); it is kept here for bit-for-bit fidelity.  `score` is the
stored `int16_t`, as a mathematical integer. -/
structure TranspositionTableEntry where
  hash : Nat
  score : Int
  depth : Nat
  ntype : TranspositionTableNodeType
  occupied : Bool
deriving DecidableEq

/-- The zero entry produced by `calloc` (`type` 0 is `EXACT`). -/
def zeroEntry : TranspositionTableEntry :=
  { hash := 0, score := 0, depth := 0, ntype := .EXACT, occupied := false }

/-- An allocated transposition table: the slot array (modelled as a function
from slot index) together with the index bitmask `transposition_table_mask`
(= size - 1, the size being a power of two). -/
structure TTable where
  mask : Nat
  entries : Nat → TranspositionTableEntry

/-- The global transposition-table state: `none` models
`transposition_table == NULL && transposition_table_size == 0`
(caching disabled). -/
abbrev TTState := Option TTable

/-- `round_up_power_of_2` (transposition.c), bit-smearing on 64-bit
`size_t`. -/
def round_up_power_of_2 (n : Nat) : Nat :=
  if n = 0 then 1
  else if n > (2 ^ 64 - 1) >>> 1 then ((2 ^ 64 - 1) >>> 1) + 1
  else if n &&& (n - 1) = 0 then n
  else
    let n := n - 1
    let n := n ||| (n >>> 1)
    let n := n ||| (n >>> 2)
    let n := n ||| (n >>> 4)
    let n := n ||| (n >>> 8)
    let n := n ||| (n >>> 16)
    let n := n ||| (n >>> 32)
    n + 1

/-- `transposition_table_init` (transposition.c).  `alloc_ok` models whether
the `calloc` call succeeds; on failure the C code warns and degrades to the
disabled state (size 0), exactly like capacity 0. -/
def transposition_table_init (size : Nat) (alloc_ok : Bool) : TTState :=
  if size = 0 then none
  else if alloc_ok then
    some { mask := round_up_power_of_2 size - 1, entries := fun _ => zeroEntry }
  else none

/-- `transposition_table_probe` (transposition.c).  Returns `some score` for a
usable hit (the C function returns 1 and fills `*out_score`), `none` for a
miss. -/
def transposition_table_probe (tt : TTState) (hash : Nat) (alpha beta : Int) :
    Option Int :=
  match tt with
  | none => none
  | some t =>
    let entry := t.entries (hash &&& t.mask)
    if entry.occupied = false then none
    else if entry.hash ≠ hash then none
    else
      let score := entry.score
      if entry.ntype = .EXACT ∨
          (entry.ntype = .LOWERBOUND ∧ score ≥ beta) ∨
          (entry.ntype = .UPPERBOUND ∧ score ≤ alpha) then some score
      else none

/-- The value of `(int16_t)score` for a C `int` score (two's-complement
truncation). -/
def toInt16 (score : Int) : Int := (score + 2 ^ 15) % 2 ^ 16 - 2 ^ 15

/-- `transposition_table_store` (transposition.c): always-replace write of
`(hash, (int16_t)score, type)`, setting `occupied`; a no-op when the table is
disabled.  The dead `depth` field is left as is (the C code does not write
it). -/
def transposition_table_store (tt : TTState) (hash : Nat) (score : Int)
    (ty : TranspositionTableNodeType) : TTState :=
  match tt with
  | none => none
  | some t =>
    let index := hash &&& t.mask
    some { t with entries := fun i =>
      if i = index then
        { hash := hash, score := toInt16 score, depth := (t.entries index).depth,
          ntype := ty, occupied := true }
      else t.entries i }

/-! ## Zobrist hashing (transposition.c)

The C code keeps the key tables in globals filled by `zobrist_init` from a
SplitMix64 stream.  Here the key tables are an explicit record (the
`player_to_index` mapping `'x' ↦ 0, _ ↦ 1` is modelled by a `Bool` that is
`true` for `'x'`), and `zobrist_init` builds that record from a seed. -/

structure ZobristKeys where
  piece : Nat → Nat → Bool → Nat
  pers : Bool → Nat
  turn : Nat

/-- The SplitMix64 output mixing function (transposition.c,
`splitmix64_next`), on 64-bit values. -/
def splitmix64_mix (z : Nat) : Nat :=
  let z := ((z ^^^ (z >>> 30)) * 0xbf58476d1ce4e5b9) % 2 ^ 64
  let z := ((z ^^^ (z >>> 27)) * 0x94d049bb133111eb) % 2 ^ 64
  z ^^^ (z >>> 31)

/-- The `k`-th output (1-based) of the SplitMix64 stream seeded with `seed`:
the generator state is just `seed + k * golden` (mod 2⁶⁴) after `k`
increments, so the stream has this closed form. -/
def splitmix64_out (seed k : Nat) : Nat :=
  splitmix64_mix ((seed + k * 0x9e3779b97f4a7c15) % 2 ^ 64)

/-- `zobrist_init` (transposition.c) after `zobrist_set_seed(seed)`: piece keys
are drawn first in `(row, col, playerIndex)` order, then the two perspective
keys, then the side-to-move key.  Draw number of piece `(r, c, p)` is
`2*(r*BOARD_SIZE + c) + p + 1` with `p = 0` for `'x'`. -/
def zobrist_init (seed : Nat) : ZobristKeys :=
  { piece := fun r c isX =>
      splitmix64_out seed (2 * (r * BOARD_SIZE + c) + (if isX then 0 else 1) + 1)
    pers := fun isX =>
      splitmix64_out seed (2 * MAX_MOVES + (if isX then 0 else 1) + 1)
    turn := splitmix64_out seed (2 * MAX_MOVES + 3) }

/-- `zobrist_toggle` (transposition.c). -/
def zobrist_toggle (ks : ZobristKeys) (hash : Nat) (row col : Nat) (player : Char) :
    Nat :=
  hash ^^^ ks.piece row col (player = 'x')

/-- `zobrist_toggle_turn` (transposition.c). -/
def zobrist_toggle_turn (ks : ZobristKeys) (hash : Nat) : Nat :=
  hash ^^^ ks.turn

/-- One of the two piece loops of `zobrist_hash`: XOR into `h` the key of every
set bit of `mask`.  The C loop scans set bits with `CTZ64` in increasing
order; for well-formed masks that is exactly the board bits `0 ≤ i < 9`
scanned here. -/
def zobrist_mask_fold (ks : ZobristKeys) (isX : Bool) (mask : Nat) (h : Nat) : Nat :=
  (List.range MAX_MOVES).foldl
    (fun h i =>
      if mask.testBit i then h ^^^ ks.piece (i / BOARD_SIZE) (i % BOARD_SIZE) isX
      else h)
    h

/-- `zobrist_hash` (transposition.c): perspective key XOR the keys of all
occupied cells ('x' pieces first, then 'o' pieces). -/
def zobrist_hash (ks : ZobristKeys) (b : Bitboard) (aiPlayer : Char) : Nat :=
  zobrist_mask_fold ks false b.o_pieces
    (zobrist_mask_fold ks true b.x_pieces (ks.pers (aiPlayer = 'x')))

/-! ## Minimax search with alpha-beta pruning (mini_max.c)

The sentinel scores are `AI_WIN_SCORE = 100`, `PLAYER_WIN_SCORE = -100`,
`TIE_SCORE = 0`, `CONTINUE_SCORE = 1`, `INF = 101`.  The C recursion is
structural on the number of empty cells; here it is driven by an explicit
fuel parameter, with `MAX_MOVES + 1` fuel always enough.  The
`bitboard_make_move` / `bitboard_unmake_move` pair of the C loop is modelled
by using the moved board only inside the recursive call (the make/unmake
round-trip itself is proved below as claim C8). -/

/-- The result of one search call: the score and the transposition table
state after the call. -/
abbrev SearchResult := Int × TTState

/-- The move loop of `miniMaxHigh` (the maximizing ply): iterate over the
empty cells, recursing with `recLow` into the minimizing ply, maximizing
`bestScore`, raising `alpha`, breaking early on a proven win
(`bestScore == AI_WIN_SCORE`) or a beta cutoff.  Returns the final
`bestScore` and table state. -/
def miniMaxHighLoop
    (recLow : Bitboard → Int → Int → Nat → TTState → SearchResult)
    (ks : ZobristKeys) (b : Bitboard) (aiPlayer : Char) (beta : Int) (hash : Nat) :
    List (Nat × Nat) → Int → Int → TTState → SearchResult
  | [], bestScore, _alpha, tt => (bestScore, tt)
  | move :: rest, bestScore, alpha, tt =>
    let b' := bitboard_make_move b move.1 move.2 aiPlayer
    let new_hash := zobrist_toggle_turn ks (zobrist_toggle ks hash move.1 move.2 aiPlayer)
    let res := recLow b' alpha beta new_hash tt
    let score := res.1
    let bestScore' := if score > bestScore then score else bestScore
    if bestScore' = 100 then (bestScore', res.2)
    else
      let alpha' := if score > alpha then score else alpha
      if beta ≤ alpha' then (bestScore', res.2)
      else miniMaxHighLoop recLow ks b aiPlayer beta hash rest bestScore' alpha' res.2

/-- The move loop of `miniMaxLow` (the minimizing ply): the opponent moves,
minimizing `bestScore`, lowering `beta`, breaking early on a proven loss
(`bestScore == PLAYER_WIN_SCORE`) or an alpha cutoff. -/
def miniMaxLowLoop
    (recHigh : Bitboard → Int → Int → Nat → TTState → SearchResult)
    (ks : ZobristKeys) (b : Bitboard) (opponent : Char) (alpha : Int) (hash : Nat) :
    List (Nat × Nat) → Int → Int → TTState → SearchResult
  | [], bestScore, _beta, tt => (bestScore, tt)
  | move :: rest, bestScore, beta, tt =>
    let b' := bitboard_make_move b move.1 move.2 opponent
    let new_hash := zobrist_toggle_turn ks (zobrist_toggle ks hash move.1 move.2 opponent)
    let res := recHigh b' alpha beta new_hash tt
    let score := res.1
    let bestScore' := if score < bestScore then score else bestScore
    if bestScore' = -100 then (bestScore', res.2)
    else
      let beta' := if score < beta then score else beta
      if beta' ≤ alpha then (bestScore', res.2)
      else miniMaxLowLoop recHigh ks b opponent alpha hash rest bestScore' beta' res.2

mutual

/-- `miniMaxHigh` (mini_max.c): the maximizing ply.  Probe the transposition
table; on a miss, evaluate terminal states (caching them as `EXACT`);
otherwise run the move loop and store the result classified against `beta`
and the original `alpha`. -/
def miniMaxHigh (ks : ZobristKeys) :
    Nat → Bitboard → Char → Int → Int → Nat → TTState → SearchResult
  | 0, _, _, _, _, _, tt => (0, tt)
  | fuel + 1, b, aiPlayer, alpha, beta, hash, tt =>
    match transposition_table_probe tt hash alpha beta with
    | some score => (score, tt)
    | none =>
      let state := boardScore b aiPlayer
      if state ≠ 1 then (state, transposition_table_store tt hash state .EXACT)
      else
        let res := miniMaxHighLoop
          (fun b' a bta h t => miniMaxLow ks fuel b' aiPlayer a bta h t)
          ks b aiPlayer beta hash (findEmptySpots b) (-101) alpha tt
        let bestScore := res.1
        let store_type : TranspositionTableNodeType :=
          if bestScore ≥ beta then .LOWERBOUND
          else if bestScore ≤ alpha then .UPPERBOUND
          else .EXACT
        (bestScore, transposition_table_store res.2 hash bestScore store_type)

/-- `miniMaxLow` (mini_max.c): the minimizing ply (the opponent of
`aiPlayer` moves). -/
def miniMaxLow (ks : ZobristKeys) :
    Nat → Bitboard → Char → Int → Int → Nat → TTState → SearchResult
  | 0, _, _, _, _, _, tt => (0, tt)
  | fuel + 1, b, aiPlayer, alpha, beta, hash, tt =>
    match transposition_table_probe tt hash alpha beta with
    | some score => (score, tt)
    | none =>
      let state := boardScore b aiPlayer
      if state ≠ 1 then (state, transposition_table_store tt hash state .EXACT)
      else
        let opponent := if aiPlayer = 'x' then 'o' else 'x'
        let res := miniMaxLowLoop
          (fun b' a bta h t => miniMaxHigh ks fuel b' aiPlayer a bta h t)
          ks b opponent alpha hash (findEmptySpots b) 101 beta tt
        let bestScore := res.1
        let store_type : TranspositionTableNodeType :=
          if bestScore ≤ alpha then .UPPERBOUND
          else if bestScore ≥ beta then .LOWERBOUND
          else .EXACT
        (bestScore, transposition_table_store res.2 hash bestScore store_type)

end

/-- The root move loop of `getAiMove`: like the maximizing ply but retaining
the best move; note the C root loop has no beta-cutoff test (beta stays at
`INF`), only the early win break. -/
def getAiMoveLoop
    (recLow : Bitboard → Int → Int → Nat → TTState → SearchResult)
    (ks : ZobristKeys) (b : Bitboard) (aiPlayer : Char) (beta : Int) (hash : Nat) :
    List (Nat × Nat) → Int × Int → Int → Int → TTState → (Int × Int) × TTState
  | [], bestMove, _bestScore, _alpha, tt => (bestMove, tt)
  | move :: rest, bestMove, bestScore, alpha, tt =>
    let b' := bitboard_make_move b move.1 move.2 aiPlayer
    let new_hash := zobrist_toggle_turn ks (zobrist_toggle ks hash move.1 move.2 aiPlayer)
    let res := recLow b' alpha beta new_hash tt
    let score := res.1
    if score > bestScore then
      if score = 100 then (((move.1 : Int), (move.2 : Int)), res.2)
      else getAiMoveLoop recLow ks b aiPlayer beta hash rest
        ((move.1 : Int), (move.2 : Int)) score score res.2
    else
      if bestScore = 100 then (bestMove, res.2)
      else getAiMoveLoop recLow ks b aiPlayer beta hash rest bestMove bestScore alpha res.2

/-- `getAiMove` (mini_max.c), the public entry point: validate (overlapping
masks → no move), reject terminal positions (no move), play the center on an
empty board, play the only empty cell if one remains, otherwise run the root
alpha-beta loop.  Returns the selected `(row, col)` (or `(-1, -1)`) and the
transposition-table state after the search. -/
def getAiMove (ks : ZobristKeys) (tt : TTState) (b : Bitboard) (aiPlayer : Char) :
    (Int × Int) × TTState :=
  if b.x_pieces &&& b.o_pieces ≠ 0 then ((-1, -1), tt)
  else if boardScore b aiPlayer ≠ 1 then ((-1, -1), tt)
  else
    let emptySpots := findEmptySpots b
    if emptySpots.length = MAX_MOVES then
      (((BOARD_SIZE / 2 : Nat), (BOARD_SIZE / 2 : Nat)), tt)
    else if emptySpots.length = 1 then
      ((match emptySpots with
        | move :: _ => ((move.1 : Int), (move.2 : Int))
        | [] => (-1, -1)), tt)
    else
      let hash := zobrist_hash ks b aiPlayer
      getAiMoveLoop (fun b' a bta h t => miniMaxLow ks MAX_MOVES b' aiPlayer a bta h t)
        ks b aiPlayer 101 hash emptySpots (-1, -1) (-101) (-101) tt

/-! ## Reference game values

The pruning-free, cache-free minimax value of a position: the specification
("perfect play") the alpha-beta search refines.  Also fuel-driven; `mmValHigh`
and `mmValLow` fix the canonical fuel. -/

mutual

/-- Pure minimax value of a position with `aiPlayer` to move (maximizing). -/
def valueHigh : Nat → Bitboard → Char → Int
  | 0, _, _ => 0
  | fuel + 1, b, aiPlayer =>
    let state := boardScore b aiPlayer
    if state ≠ 1 then state
    else
      (findEmptySpots b).foldl
        (fun acc move =>
          max acc (valueLow fuel (bitboard_make_move b move.1 move.2 aiPlayer) aiPlayer))
        (-101)

/-- Pure minimax value of a position with the opponent of `aiPlayer` to move
(minimizing). -/
def valueLow : Nat → Bitboard → Char → Int
  | 0, _, _ => 0
  | fuel + 1, b, aiPlayer =>
    let state := boardScore b aiPlayer
    if state ≠ 1 then state
    else
      let opponent := if aiPlayer = 'x' then 'o' else 'x'
      (findEmptySpots b).foldl
        (fun acc move =>
          min acc (valueHigh fuel (bitboard_make_move b move.1 move.2 opponent) aiPlayer))
        101

end

/-- The minimax value of `b` at a maximize node, with canonical (always
sufficient) fuel. -/
def mmValHigh (b : Bitboard) (aiPlayer : Char) : Int :=
  valueHigh (emptyCount b + 1) b aiPlayer

/-- The minimax value of `b` at a minimize node, with canonical fuel. -/
def mmValLow (b : Bitboard) (aiPlayer : Char) : Int :=
  valueLow (emptyCount b + 1) b aiPlayer

/-- The minimax value, for `aiPlayer`, of playing `m` at the root: the
minimize-ply value of the resulting child position. -/
def childVal (b : Bitboard) (ai : Char) (m : Nat × Nat) : Int :=
  mmValLow (bitboard_make_move b m.1 m.2 ai) ai

/-- The root selection policy of `getAiMove`, expressed over exact child
values: a running strict-max scan (so ties keep the earlier move) with the
early break on a winning score.  `getAiMoveLoop` is proven to compute exactly
this, for any transposition-table state. -/
def selectFirstMax (b : Bitboard) (ai : Char) :
    List (Nat × Nat) → Int × Int → Int → Int × Int
  | [], bm, _ => bm
  | m :: rest, bm, bs =>
    if childVal b ai m > bs then
      if childVal b ai m = 100 then ((m.1 : Int), (m.2 : Int))
      else selectFirstMax b ai rest ((m.1 : Int), (m.2 : Int)) (childVal b ai m)
    else if bs = 100 then bm
    else selectFirstMax b ai rest bm bs

/-- The move `getAiMove` selects, as a pure function of the position and the
AI symbol alone (mirroring the entry shortcuts of `getAiMove` and the root
scan over exact child values).  `getAiMove` is proven to return exactly this
move whatever the (sound) transposition-table state, which is the precise
sense in which caching never changes the selected move. -/
def selectMove (b : Bitboard) (ai : Char) : Int × Int :=
  if b.x_pieces &&& b.o_pieces ≠ 0 then (-1, -1)
  else if boardScore b ai ≠ 1 then (-1, -1)
  else if (findEmptySpots b).length = MAX_MOVES then
    ((BOARD_SIZE / 2 : Nat), (BOARD_SIZE / 2 : Nat))
  else if (findEmptySpots b).length = 1 then
    (match findEmptySpots b with
      | move :: _ => ((move.1 : Int), (move.2 : Int))
      | [] => (-1, -1))
  else selectFirstMax b ai (findEmptySpots b) (-1, -1) (-101)

/-- Concrete collision-free ("perfect") Zobrist keys for the 3×3 board: each
key is a distinct power of two, so a hash is a readable record of the whole
search state: bits 0–8 the `'x'` pieces, bits 9–17 the `'o'` pieces, bit 18
or 19 the perspective, bit 20 the side to move. -/
def kP : ZobristKeys where
  piece := fun r c isX => 2 ^ (r * BOARD_SIZE + c + cond isX 0 MAX_MOVES)
  pers := fun isX => cond isX (2 ^ 18) (2 ^ 19)
  turn := 2 ^ 20

/-! ## Self-play driver (spec §8, "perfect play invariant")

A full self-play game in which both sides pick their moves with `getAiMove`,
the transposition table being threaded through all calls and surviving from
game to game. -/

/-- Outcome of a self-play game. -/
inductive GameOutcome where
  | xWins
  | oWins
  | tie
  | aborted
deriving DecidableEq

/-- One self-play game from position `b` with `turn` to move: stop as soon as
a side has a completed line or the board is full, otherwise let `getAiMove`
pick the mover's move and continue.  (`aborted` signals a `(-1,-1)` return or
fuel exhaustion; it never occurs from a legal position.) -/
def selfPlayLoop (ks : ZobristKeys) :
    Nat → Bitboard → Char → TTState → GameOutcome × TTState
  | 0, _, _, tt => (.aborted, tt)
  | fuel + 1, b, turn, tt =>
    if bitboard_has_won b.x_pieces then (.xWins, tt)
    else if bitboard_has_won b.o_pieces then (.oWins, tt)
    else if b.x_pieces ||| b.o_pieces = VALID_POSITIONS_MASK then (.tie, tt)
    else
      let res := getAiMove ks tt b turn
      let move := res.1
      if move.1 < 0 ∨ move.2 < 0 then (.aborted, res.2)
      else selfPlayLoop ks fuel
        (bitboard_make_move b move.1.toNat move.2.toNat turn)
        (if turn = 'x' then 'o' else 'x') res.2

/-- One full self-play game from the empty board; `firstX` picks which symbol
moves first. -/
def selfPlayGame (ks : ZobristKeys) (tt : TTState) (firstX : Bool) :
    GameOutcome × TTState :=
  selfPlayLoop ks (MAX_MOVES + 1) ⟨0, 0⟩ (if firstX then 'x' else 'o') tt

/-- A session of consecutive self-play games (one per entry of `firsts`,
giving the starting side of each game), reusing the transposition table from
game to game. -/
def selfPlayGames (ks : ZobristKeys) :
    List Bool → TTState → List GameOutcome × TTState
  | [], tt => ([], tt)
  | f :: rest, tt =>
    let res := selfPlayGame ks tt f
    let res' := selfPlayGames ks rest res.2
    (res.1 :: res'.1, res'.2)

/-! ## Basic bit-level lemmas -/

lemma BIT_MASK_eq (row col : Nat) : BIT_MASK row col = 2 ^ (row * BOARD_SIZE + col) := by
  simp [BIT_MASK, POS_TO_BIT, Nat.one_shiftLeft]

lemma testBit_false_of_land_shift_zero {m k : Nat} (h : m &&& (1 <<< k) = 0) :
    m.testBit k = false := by
  have h' := congrArg (Nat.testBit · k) h
  simpa [Nat.one_shiftLeft, Nat.testBit_two_pow] using h'

lemma land_shift_zero_of_testBit_false {m k : Nat} (h : m.testBit k = false) :
    m &&& (1 <<< k) = 0 := by
  apply Nat.eq_of_testBit_eq
  intro i
  rcases eq_or_ne i k with rfl | hik
  · simp [Nat.one_shiftLeft, h]
  · simp [Nat.one_shiftLeft, Nat.testBit_two_pow, (Ne.symm hik)]

/-- Normalized player symbol: the C code only ever tests `player == 'x'`, so
every symbol behaves either as `'x'` or as `'o'`. -/
def charNorm (p : Char) : Char := if p = 'x' then 'x' else 'o'

lemma charNorm_eq_x_iff (p : Char) : charNorm p = 'x' ↔ p = 'x' := by
  unfold charNorm
  by_cases h : p = 'x' <;> simp [h]

lemma bitboard_make_move_norm (b : Bitboard) (r c : Nat) (p : Char) :
    bitboard_make_move b r c (charNorm p) = bitboard_make_move b r c p := by
  unfold bitboard_make_move charNorm
  by_cases h : p = 'x' <;> simp [h]

lemma boardScore_norm (b : Bitboard) (p : Char) :
    boardScore b (charNorm p) = boardScore b p := by
  unfold boardScore charNorm
  by_cases h : p = 'x' <;> simp [h]

/-! ## Claim C8: make/unmake round-trip -/

lemma testBit_COMPL64 (m i : Nat) :
    (COMPL64 m).testBit i = xor (decide (i < 64)) (m.testBit i) := by
  unfold COMPL64
  rw [Nat.testBit_xor, Nat.testBit_two_pow_sub_one]

lemma lor_land_compl64 {x k : Nat} (hx : x < 2 ^ 64) (hk : k < 64)
    (hbit : x.testBit k = false) :
    (x ||| 1 <<< k) &&& COMPL64 (1 <<< k) = x := by
  apply Nat.eq_of_testBit_eq
  intro i
  rw [Nat.testBit_and, Nat.testBit_or, testBit_COMPL64, Nat.one_shiftLeft,
    Nat.testBit_two_pow]
  rcases eq_or_ne i k with rfl | hik
  · simp [hbit, hk]
  · by_cases hi : i < 64
    · simp [Ne.symm hik, hi]
    · have hxi : x.testBit i = false :=
        Nat.testBit_lt_two_pow (lt_of_lt_of_le hx (Nat.pow_le_pow_right (by omega) (by omega)))
      simp [Ne.symm hik, hxi, hi]

/-- **C8.** For every 64-bit board position and every board cell that is empty
in it, `bitboard_unmake_move` after `bitboard_make_move` with the same row,
column and player restores the position bit-for-bit. -/
theorem make_unmake_roundtrip (b : Bitboard) (row col : Nat) (player : Char)
    (hx : b.x_pieces < 2 ^ 64) (ho : b.o_pieces < 2 ^ 64)
    (hrow : row < BOARD_SIZE) (hcol : col < BOARD_SIZE)
    (hempty : bitboard_is_empty b row col = true) :
    bitboard_unmake_move (bitboard_make_move b row col player) row col player = b := by
  have hk : POS_TO_BIT row col < 64 := by
    unfold POS_TO_BIT BOARD_SIZE at *
    omega
  have hb : (b.x_pieces ||| b.o_pieces).testBit (POS_TO_BIT row col) = false := by
    apply testBit_false_of_land_shift_zero
    simpa [bitboard_is_empty, BIT_MASK] using hempty
  rw [Nat.testBit_or, Bool.or_eq_false_iff] at hb
  obtain ⟨bx, bo⟩ := b
  unfold bitboard_make_move bitboard_unmake_move BIT_MASK
  by_cases hp : player = 'x'
  · subst hp
    have h := lor_land_compl64 hx hk hb.1
    simp [h]
  · have h := lor_land_compl64 ho hk hb.2
    simp [hp, h]

/-- **C8 witness.** The round-trip at a concrete input: placing and removing
an `'o'` at `(1, 2)` on a position with an `'x'` at `(0, 0)`. -/
theorem make_unmake_roundtrip_witness :
    bitboard_unmake_move (bitboard_make_move ⟨1, 0⟩ 1 2 'o') 1 2 'o' = ⟨1, 0⟩ :=
  make_unmake_roundtrip ⟨1, 0⟩ 1 2 'o' (by norm_num) (by norm_num)
    (by norm_num [BOARD_SIZE]) (by norm_num [BOARD_SIZE]) (by decide)

/-! ## Claim C9: `did_last_move_win` is strictly weaker than `has_won` -/

/-- **C9.** There is a player mask with a completed row-0 win (so
`bitboard_has_won` is true) and a board cell at which
`bitboard_did_last_move_win` nevertheless answers false: the restricted
check only tests the lines through the queried cell. -/
theorem did_last_move_win_weaker :
    ∃ (mask row col : Nat), row < BOARD_SIZE ∧ col < BOARD_SIZE ∧
      bitboard_has_won mask = true ∧
      bitboard_did_last_move_win mask row col = false :=
  ⟨7, 2, 1, by decide, by decide, by decide, by decide⟩

/-! ## Claim C1: the probe hit condition -/

/-- **C1.** `transposition_table_probe` on an allocated table reports a hit
with exactly the stored score if and only if the indexed slot is occupied,
its stored 64-bit hash equals the probed hash, and the stored bound admits
reuse under the probe window (`EXACT` always; `LOWER_BOUND` of value `v` only
when `v ≥ beta`; `UPPER_BOUND` of value `v` only when `v ≤ alpha`); in every
other case the probe is a miss. -/
theorem probe_hit_iff (t : TTable) (hash : Nat) (alpha beta : Int)
    (e : TranspositionTableEntry) (he : t.entries (hash &&& t.mask) = e) :
    transposition_table_probe (some t) hash alpha beta =
      (if e.occupied = true ∧ e.hash = hash ∧
          (e.ntype = .EXACT ∨ (e.ntype = .LOWERBOUND ∧ e.score ≥ beta) ∨
            (e.ntype = .UPPERBOUND ∧ e.score ≤ alpha))
        then some e.score else none) := by
  simp only [transposition_table_probe, he]
  obtain ⟨eh, es, ed, et, eo⟩ := e
  cases eo
  · simp
  · by_cases h2 : eh = hash
    · subst h2
      by_cases h3 : et = TranspositionTableNodeType.EXACT ∨
          (et = TranspositionTableNodeType.LOWERBOUND ∧ es ≥ beta) ∨
          (et = TranspositionTableNodeType.UPPERBOUND ∧ es ≤ alpha)
      · simp [h3]
      · simp [h3]
    · simp [h2]

/-! ## Characterizing `findEmptySpots` -/

lemma land_shift_ne_zero_iff {m k : Nat} : m &&& (1 <<< k) ≠ 0 ↔ m.testBit k = true := by
  constructor
  · intro h
    cases hbit : m.testBit k
    · exact absurd (land_shift_zero_of_testBit_false hbit) h
    · rfl
  · intro h hz
    rw [testBit_false_of_land_shift_zero hz] at h
    exact Bool.false_ne_true h

lemma testBit_emptyMask (b : Bitboard) (i : Nat) (hi : i < MAX_MOVES) :
    (COMPL64 (b.x_pieces ||| b.o_pieces) &&& VALID_POSITIONS_MASK).testBit i =
      !(b.x_pieces ||| b.o_pieces).testBit i := by
  have h9 : VALID_POSITIONS_MASK = 2 ^ 9 - 1 := by decide
  have hi64 : i < 64 := by unfold MAX_MOVES BOARD_SIZE at hi; omega
  have hi9 : i < 9 := by unfold MAX_MOVES BOARD_SIZE at hi; omega
  rw [Nat.testBit_and, testBit_COMPL64, h9, Nat.testBit_two_pow_sub_one]
  simp [hi64, hi9, Bool.xor_comm]

lemma mem_findEmptySpots {b : Bitboard} {r c : Nat} :
    (r, c) ∈ findEmptySpots b ↔
      r < BOARD_SIZE ∧ c < BOARD_SIZE ∧
        (b.x_pieces ||| b.o_pieces).testBit (r * BOARD_SIZE + c) = false := by
  unfold findEmptySpots
  simp only [List.mem_filterMap, List.mem_range]
  constructor
  · rintro ⟨i, hi, hsome⟩
    split_ifs at hsome with hcond
    · rw [land_shift_ne_zero_iff, testBit_emptyMask b i hi, Bool.not_eq_eq_eq_not,
        Bool.not_true] at hcond
      have h := Option.some.inj hsome
      have hri : i / BOARD_SIZE = r := congrArg Prod.fst h
      have hci : i % BOARD_SIZE = c := congrArg Prod.snd h
      have hieq : r * BOARD_SIZE + c = i := by
        unfold BOARD_SIZE MAX_MOVES at *
        omega
      refine ⟨?_, ?_, hieq ▸ hcond⟩
      · unfold MAX_MOVES BOARD_SIZE at *
        omega
      · unfold BOARD_SIZE at *
        omega
  · rintro ⟨hr, hc, hbit⟩
    refine ⟨r * BOARD_SIZE + c, by unfold MAX_MOVES BOARD_SIZE at *; omega, ?_⟩
    rw [if_pos]
    · simp only [Option.some.injEq, Prod.mk.injEq]
      unfold BOARD_SIZE at *
      omega
    · rw [land_shift_ne_zero_iff,
        testBit_emptyMask b _ (by unfold MAX_MOVES BOARD_SIZE at *; omega), hbit]
      rfl

lemma mem_findEmptySpots_shape {b : Bitboard} {m : Nat × Nat}
    (h : m ∈ findEmptySpots b) :
    m.1 < BOARD_SIZE ∧ m.2 < BOARD_SIZE ∧
      (b.x_pieces ||| b.o_pieces).testBit (m.1 * BOARD_SIZE + m.2) = false := by
  obtain ⟨r, c⟩ := m
  exact mem_findEmptySpots.mp h

/-- Applying `bitboard_make_move` sets one bit of the combined occupancy. -/
lemma occ_make (b : Bitboard) (r c : Nat) (p : Char) :
    (bitboard_make_move b r c p).x_pieces ||| (bitboard_make_move b r c p).o_pieces =
      (b.x_pieces ||| b.o_pieces) ||| (1 <<< (r * BOARD_SIZE + c)) := by
  unfold bitboard_make_move BIT_MASK POS_TO_BIT
  by_cases hp : p = 'x' <;> simp only [hp, if_true, if_false, reduceIte]
  · rw [Nat.or_assoc, Nat.or_comm (1 <<< (r * BOARD_SIZE + c)) b.o_pieces,
      ← Nat.or_assoc]
  · rw [← Nat.or_assoc, Nat.or_comm b.x_pieces b.o_pieces, Nat.or_assoc]

lemma countP_lt_of_pointwise {α : Type} {L : List α} {p q : α → Bool}
    (hmono : ∀ a ∈ L, p a = true → q a = true) {k : α} (hk : k ∈ L)
    (hp : p k = false) (hq : q k = true) :
    L.countP p < L.countP q := by
  induction L with
  | nil => cases hk
  | cons a L ih =>
    rw [List.countP_cons, List.countP_cons]
    rcases List.mem_cons.mp hk with rfl | hkL
    · have h1 : L.countP p ≤ L.countP q :=
        List.countP_mono_left fun x hx h => hmono x (List.mem_cons_of_mem _ hx) h
      simp [hp, hq]
      omega
    · have h2 := ih (fun x hx h => hmono x (List.mem_cons_of_mem _ hx) h) hkL
      by_cases hpa : p a = true
      · have hqa := hmono a (List.mem_cons_self a L) hpa
        simp [hpa, hqa]
        omega
      · rw [Bool.not_eq_true] at hpa
        rw [hpa]
        cases hqa : q a <;> simp <;> omega

/-- The length of a `filterMap` of `if _ then some _ else none` is a count. -/
lemma length_filterMap_if {α : Type} (L : List Nat) (g : Nat → Bool) (f : Nat → α) :
    (L.filterMap fun i => if g i = true then some (f i) else none).length =
      L.countP g := by
  induction L with
  | nil => rfl
  | cons a L ih =>
    by_cases h : g a <;> simp [List.filterMap_cons, List.countP_cons, h, ih]

lemma emptyCount_eq_countP (b : Bitboard) :
    emptyCount b = (List.range MAX_MOVES).countP fun i =>
      !(b.x_pieces ||| b.o_pieces).testBit i := by
  unfold emptyCount findEmptySpots
  have : ∀ i ∈ List.range MAX_MOVES,
      (if (COMPL64 (b.x_pieces ||| b.o_pieces) &&& VALID_POSITIONS_MASK) &&&
          (1 <<< i) ≠ 0 then some (i / BOARD_SIZE, i % BOARD_SIZE) else none) =
      (if (!(b.x_pieces ||| b.o_pieces).testBit i) = true then
          some (i / BOARD_SIZE, i % BOARD_SIZE) else none) := by
    intro i hi
    rw [List.mem_range] at hi
    by_cases h : (b.x_pieces ||| b.o_pieces).testBit i
    · rw [if_neg, if_neg] <;>
        simp [land_shift_ne_zero_iff, testBit_emptyMask b i hi, h]
    · rw [if_pos, if_pos] <;>
        simp [land_shift_ne_zero_iff, testBit_emptyMask b i hi, h]
  rw [List.filterMap_congr this, length_filterMap_if]

/-- Making a move on a listed empty cell strictly decreases the number of
empty cells. -/
lemma emptyCount_make_lt {b : Bitboard} {m : Nat × Nat} (p : Char)
    (hmem : m ∈ findEmptySpots b) :
    emptyCount (bitboard_make_move b m.1 m.2 p) < emptyCount b := by
  obtain ⟨r, c⟩ := m
  obtain ⟨hr, hc, hbit⟩ := mem_findEmptySpots.mp hmem
  rw [emptyCount_eq_countP, emptyCount_eq_countP]
  refine countP_lt_of_pointwise ?_ (k := r * BOARD_SIZE + c) ?_ ?_ ?_
  · intro i hi h
    simp only [Bool.not_eq_true'] at h ⊢
    rw [occ_make, Nat.testBit_or, Bool.or_eq_false_iff] at h
    exact h.1
  · rw [List.mem_range]
    unfold MAX_MOVES BOARD_SIZE at *
    omega
  · show (!((bitboard_make_move b r c p).x_pieces |||
        (bitboard_make_move b r c p).o_pieces).testBit (r * BOARD_SIZE + c)) = false
    rw [occ_make, Nat.testBit_or, Nat.one_shiftLeft, Nat.testBit_two_pow]
    simp
  · show (!(b.x_pieces ||| b.o_pieces).testBit (r * BOARD_SIZE + c)) = true
    rw [hbit]
    rfl

/-- Making a move on a board cell preserves well-formedness. -/
lemma wfBoard_make {b : Bitboard} {r c : Nat} (p : Char)
    (hwf : wfBoard b) (hr : r < BOARD_SIZE) (hc : c < BOARD_SIZE) :
    wfBoard (bitboard_make_move b r c p) := by
  have hk : 1 <<< (r * BOARD_SIZE + c) < 2 ^ MAX_MOVES := by
    rw [Nat.one_shiftLeft]
    exact Nat.pow_lt_pow_right (by norm_num)
      (by unfold MAX_MOVES BOARD_SIZE at *; omega)
  obtain ⟨hx, ho⟩ := hwf
  unfold bitboard_make_move BIT_MASK POS_TO_BIT wfBoard
  by_cases hp : p = 'x' <;> simp [hp] <;>
    constructor <;> first
      | assumption
      | exact Nat.or_lt_two_pow (by assumption) hk

/-- A full board is classified as terminal by `boardScore`. -/
lemma boardScore_ne_one_of_full {b : Bitboard} (ai : Char)
    (hocc : b.x_pieces ||| b.o_pieces = VALID_POSITIONS_MASK) :
    boardScore b ai ≠ 1 := by
  unfold boardScore
  by_cases h1 : bitboard_has_won (if ai = 'x' then b.x_pieces else b.o_pieces)
  · simp [h1]
  · by_cases h2 : bitboard_has_won (if ai = 'x' then b.o_pieces else b.x_pieces)
    · simp [h1, h2]
    · simp [h1, h2, hocc]

/-- A well-formed position that the evaluator does not classify as terminal
has at least one empty cell. -/
lemma findEmptySpots_ne_nil {b : Bitboard} {ai : Char} (hwf : wfBoard b)
    (hcont : boardScore b ai = 1) :
    findEmptySpots b ≠ [] := by
  intro hnil
  have hocc : b.x_pieces ||| b.o_pieces = VALID_POSITIONS_MASK := by
    apply Nat.eq_of_testBit_eq
    intro i
    have hm : VALID_POSITIONS_MASK = 2 ^ 9 - 1 := by decide
    rw [hm, Nat.testBit_two_pow_sub_one]
    by_cases hi : i < 9
    · simp only [hi, decide_True]
      by_contra hb
      rw [Bool.not_eq_true] at hb
      have hmem : (i / BOARD_SIZE, i % BOARD_SIZE) ∈ findEmptySpots b := by
        rw [mem_findEmptySpots]
        refine ⟨?_, ?_, ?_⟩
        · unfold BOARD_SIZE
          omega
        · unfold BOARD_SIZE
          omega
        · have heq : i / BOARD_SIZE * BOARD_SIZE + i % BOARD_SIZE = i := by
            unfold BOARD_SIZE
            omega

          rw [heq, hb]
      rw [hnil] at hmem
      cases hmem
    · have hlt : b.x_pieces ||| b.o_pieces < 2 ^ i := by
        obtain ⟨hx, ho⟩ := hwf
        calc b.x_pieces ||| b.o_pieces < 2 ^ MAX_MOVES :=
              Nat.or_lt_two_pow hx ho
          _ ≤ 2 ^ i := Nat.pow_le_pow_right (by norm_num)
              (by unfold MAX_MOVES BOARD_SIZE at *; omega)
      simp [Nat.testBit_lt_two_pow hlt, hi]
  exact boardScore_ne_one_of_full ai hocc hcont

/-! ## Lemmas about the reference game values -/

/-- The three scores a terminal evaluation can produce. -/
def scoreSet (v : Int) : Prop := v = -100 ∨ v = 0 ∨ v = 100

lemma boardScore_scoreSet {b : Bitboard} {ai : Char}
    (h : boardScore b ai ≠ 1) : scoreSet (boardScore b ai) := by
  unfold scoreSet
  simp only [boardScore] at h ⊢
  split_ifs at h ⊢ <;> omega

lemma foldl_max_le_init (L : List (Nat × Nat)) (g : Nat × Nat → Int) (a : Int) :
    a ≤ L.foldl (fun acc m => max acc (g m)) a := by
  induction L generalizing a with
  | nil => simp
  | cons m L ih => exact le_trans (le_max_left a (g m)) (ih _)

lemma foldl_max_le_mem {L : List (Nat × Nat)} {g : Nat × Nat → Int} {a : Int}
    {m : Nat × Nat} (hm : m ∈ L) :
    g m ≤ L.foldl (fun acc m => max acc (g m)) a := by
  induction L generalizing a with
  | nil => cases hm
  | cons m' L ih =>
    rcases List.mem_cons.mp hm with rfl | hm'
    · exact le_trans (le_max_right a (g m)) (foldl_max_le_init L g _)
    · exact ih hm'

lemma foldl_max_eq_init_or_mem (L : List (Nat × Nat)) (g : Nat × Nat → Int) (a : Int) :
    L.foldl (fun acc m => max acc (g m)) a = a ∨
      ∃ m ∈ L, L.foldl (fun acc m => max acc (g m)) a = g m := by
  induction L generalizing a with
  | nil => left; rfl
  | cons m L ih =>
    rcases ih (max a (g m)) with h | ⟨m', hm', h⟩
    · simp only [List.foldl_cons]
      rcases max_cases a (g m) with ⟨hmax, -⟩ | ⟨hmax, -⟩
      · left
        rw [h, hmax]
      · right
        exact ⟨m, List.mem_cons_self m L, by rw [h, hmax]⟩
    · right
      exact ⟨m', List.mem_cons_of_mem m hm', h⟩

lemma foldl_min_ge_init (L : List (Nat × Nat)) (g : Nat × Nat → Int) (a : Int) :
    L.foldl (fun acc m => min acc (g m)) a ≤ a := by
  induction L generalizing a with
  | nil => simp
  | cons m L ih => exact le_trans (ih _) (min_le_left a (g m))

lemma foldl_min_ge_mem {L : List (Nat × Nat)} {g : Nat × Nat → Int} {a : Int}
    {m : Nat × Nat} (hm : m ∈ L) :
    L.foldl (fun acc m => min acc (g m)) a ≤ g m := by
  induction L generalizing a with
  | nil => cases hm
  | cons m' L ih =>
    rcases List.mem_cons.mp hm with rfl | hm'
    · exact le_trans (foldl_min_ge_init L g _) (min_le_right a (g m))
    · exact ih hm'

lemma foldl_min_eq_init_or_mem (L : List (Nat × Nat)) (g : Nat × Nat → Int) (a : Int) :
    L.foldl (fun acc m => min acc (g m)) a = a ∨
      ∃ m ∈ L, L.foldl (fun acc m => min acc (g m)) a = g m := by
  induction L generalizing a with
  | nil => left; rfl
  | cons m L ih =>
    rcases ih (min a (g m)) with h | ⟨m', hm', h⟩
    · simp only [List.foldl_cons]
      rcases min_cases a (g m) with ⟨hmin, -⟩ | ⟨hmin, -⟩
      · left
        rw [h, hmin]
      · right
        exact ⟨m, List.mem_cons_self m L, by rw [h, hmin]⟩
    · right
      exact ⟨m', List.mem_cons_of_mem m hm', h⟩

lemma foldl_congr_fn {α β : Type} {L : List α} {f g : β → α → β} {a : β}
    (h : ∀ acc, ∀ m ∈ L, f acc m = g acc m) : L.foldl f a = L.foldl g a := by
  induction L generalizing a with
  | nil => rfl
  | cons m L ih =>
    rw [List.foldl_cons, List.foldl_cons, h a m (List.mem_cons_self m L)]
    exact ih fun acc m' hm' => h acc m' (List.mem_cons_of_mem m hm')

/-- Range of the reference values: with enough fuel, on a well-formed board,
the pure minimax value is a terminal score. -/
lemma value_scoreSet :
    ∀ fuel, (∀ b ai, wfBoard b → emptyCount b + 1 ≤ fuel →
        scoreSet (valueHigh fuel b ai)) ∧
      (∀ b ai, wfBoard b → emptyCount b + 1 ≤ fuel →
        scoreSet (valueLow fuel b ai)) := by
  intro fuel
  induction fuel with
  | zero => exact ⟨fun b ai _ h => absurd h (by omega), fun b ai _ h => absurd h (by omega)⟩
  | succ f ih =>
    constructor
    · intro b ai hwf hfuel
      rw [valueHigh]
      by_cases hst : boardScore b ai ≠ 1
      · rw [if_pos hst]
        exact boardScore_scoreSet hst
      · rw [if_neg hst]
        rw [not_not] at hst
        have hne := findEmptySpots_ne_nil hwf hst
        rcases foldl_max_eq_init_or_mem (findEmptySpots b)
            (fun m => valueLow f (bitboard_make_move b m.1 m.2 ai) ai) (-101) with h | ⟨m, hm, h⟩
        · exfalso
          obtain ⟨m, hm⟩ := List.exists_mem_of_ne_nil _ hne
          have h1 := foldl_max_le_mem (g := fun m =>
            valueLow f (bitboard_make_move b m.1 m.2 ai) ai) (a := -101) hm
          have hshape := mem_findEmptySpots_shape hm
          have hchild := (ih.2 (bitboard_make_move b m.1 m.2 ai) ai
            (wfBoard_make ai hwf hshape.1 hshape.2.1)
            (by have := emptyCount_make_lt ai hm; omega))
          rw [h] at h1
          have h2 : valueLow f (bitboard_make_move b m.1 m.2 ai) ai ≤ -101 := h1
          unfold scoreSet at hchild
          omega
        · rw [h]
          have hshape := mem_findEmptySpots_shape hm
          exact ih.2 (bitboard_make_move b m.1 m.2 ai) ai
            (wfBoard_make ai hwf hshape.1 hshape.2.1)
            (by have := emptyCount_make_lt ai hm; omega)
    · intro b ai hwf hfuel
      rw [valueLow]
      by_cases hst : boardScore b ai ≠ 1
      · rw [if_pos hst]
        exact boardScore_scoreSet hst
      · rw [if_neg hst]
        rw [not_not] at hst
        have hne := findEmptySpots_ne_nil hwf hst
        set opp := if ai = 'x' then 'o' else 'x' with hopp
        rcases foldl_min_eq_init_or_mem (findEmptySpots b)
            (fun m => valueHigh f (bitboard_make_move b m.1 m.2 opp) ai) 101 with h | ⟨m, hm, h⟩
        · exfalso
          obtain ⟨m, hm⟩ := List.exists_mem_of_ne_nil _ hne
          have h1 := foldl_min_ge_mem (g := fun m =>
            valueHigh f (bitboard_make_move b m.1 m.2 opp) ai) (a := 101) hm
          have hshape := mem_findEmptySpots_shape hm
          have hchild := (ih.1 (bitboard_make_move b m.1 m.2 opp) ai
            (wfBoard_make opp hwf hshape.1 hshape.2.1)
            (by have := emptyCount_make_lt opp hm; omega))
          rw [h] at h1
          have h2 : 101 ≤ valueHigh f (bitboard_make_move b m.1 m.2 opp) ai := h1
          unfold scoreSet at hchild
          omega
        · rw [h]
          have hshape := mem_findEmptySpots_shape hm
          exact ih.1 (bitboard_make_move b m.1 m.2 opp) ai
            (wfBoard_make opp hwf hshape.1 hshape.2.1)
            (by have := emptyCount_make_lt opp hm; omega)

/-- Fuel irrelevance: any two sufficient fuels give the same value. -/
lemma value_fuel_congr :
    ∀ fuel fuel' , (∀ b ai, wfBoard b → emptyCount b + 1 ≤ fuel →
        emptyCount b + 1 ≤ fuel' → valueHigh fuel b ai = valueHigh fuel' b ai) ∧
      (∀ b ai, wfBoard b → emptyCount b + 1 ≤ fuel →
        emptyCount b + 1 ≤ fuel' → valueLow fuel b ai = valueLow fuel' b ai) := by
  intro fuel
  induction fuel with
  | zero =>
    exact fun fuel' =>
      ⟨fun b ai _ h _ => absurd h (by omega), fun b ai _ h _ => absurd h (by omega)⟩
  | succ f ih =>
    intro fuel'
    match fuel' with
    | 0 =>
      exact ⟨fun b ai _ _ h => absurd h (by omega), fun b ai _ _ h => absurd h (by omega)⟩
    | f' + 1 =>
      constructor
      · intro b ai hwf hf hf'
        rw [valueHigh, valueHigh]
        by_cases hst : boardScore b ai ≠ 1
        · rw [if_pos hst, if_pos hst]
        · rw [if_neg hst, if_neg hst]
          apply foldl_congr_fn
          intro acc m hm
          have hshape := mem_findEmptySpots_shape hm
          have hlt := emptyCount_make_lt (b := b) (m := m) ai hm
          rw [(ih f').2 (bitboard_make_move b m.1 m.2 ai) ai
            (wfBoard_make ai hwf hshape.1 hshape.2.1) (by omega) (by omega)]
      · intro b ai hwf hf hf'
        rw [valueLow, valueLow]
        by_cases hst : boardScore b ai ≠ 1
        · rw [if_pos hst, if_pos hst]
        · rw [if_neg hst, if_neg hst]
          apply foldl_congr_fn
          intro acc m hm
          have hshape := mem_findEmptySpots_shape hm
          have hlt := emptyCount_make_lt (b := b) (m := m)
            (if ai = 'x' then 'o' else 'x') hm
          rw [(ih f').1 (bitboard_make_move b m.1 m.2 (if ai = 'x' then 'o' else 'x')) ai
            (wfBoard_make _ hwf hshape.1 hshape.2.1) (by omega) (by omega)]

lemma mmValHigh_eq_valueHigh {b : Bitboard} {ai : Char} {fuel : Nat}
    (hwf : wfBoard b) (hfuel : emptyCount b + 1 ≤ fuel) :
    mmValHigh b ai = valueHigh fuel b ai :=
  (value_fuel_congr (emptyCount b + 1) fuel).1 b ai hwf (le_refl _) hfuel

lemma mmValLow_eq_valueLow {b : Bitboard} {ai : Char} {fuel : Nat}
    (hwf : wfBoard b) (hfuel : emptyCount b + 1 ≤ fuel) :
    mmValLow b ai = valueLow fuel b ai :=
  (value_fuel_congr (emptyCount b + 1) fuel).2 b ai hwf (le_refl _) hfuel

/-- On a terminal position the reference values are the terminal score. -/
lemma mmValHigh_terminal {b : Bitboard} {ai : Char} (hst : boardScore b ai ≠ 1) :
    mmValHigh b ai = boardScore b ai := by
  unfold mmValHigh
  rw [valueHigh, if_pos hst]

lemma mmValLow_terminal {b : Bitboard} {ai : Char} (hst : boardScore b ai ≠ 1) :
    mmValLow b ai = boardScore b ai := by
  unfold mmValLow
  rw [valueLow, if_pos hst]

/-- Unfolding of `mmValHigh` at a non-terminal position: the maximum of the
children's `mmValLow` values over the enumerated empty cells. -/
lemma mmValHigh_step {b : Bitboard} {ai : Char} (hwf : wfBoard b)
    (hst : boardScore b ai = 1) :
    mmValHigh b ai = (findEmptySpots b).foldl
      (fun acc m => max acc (mmValLow (bitboard_make_move b m.1 m.2 ai) ai)) (-101) := by
  unfold mmValHigh
  rw [valueHigh, if_neg (by omega)]
  apply foldl_congr_fn
  intro acc m hm
  have hshape := mem_findEmptySpots_shape hm
  have hlt := emptyCount_make_lt (b := b) (m := m) ai hm
  have heq : mmValLow (bitboard_make_move b m.1 m.2 ai) ai
      = valueLow (emptyCount b) (bitboard_make_move b m.1 m.2 ai) ai :=
    mmValLow_eq_valueLow (wfBoard_make ai hwf hshape.1 hshape.2.1) (by omega)
  rw [heq]

/-- Unfolding of `mmValLow` at a non-terminal position. -/
lemma mmValLow_step {b : Bitboard} {ai : Char} (hwf : wfBoard b)
    (hst : boardScore b ai = 1) :
    mmValLow b ai = (findEmptySpots b).foldl
      (fun acc m => min acc (mmValHigh
        (bitboard_make_move b m.1 m.2 (if ai = 'x' then 'o' else 'x')) ai)) 101 := by
  unfold mmValLow
  rw [valueLow, if_neg (by omega)]
  apply foldl_congr_fn
  intro acc m hm
  have hshape := mem_findEmptySpots_shape hm
  have hlt := emptyCount_make_lt (b := b) (m := m) (if ai = 'x' then 'o' else 'x') hm
  have heq : mmValHigh
        (bitboard_make_move b m.1 m.2 (if ai = 'x' then 'o' else 'x')) ai
      = valueHigh (emptyCount b)
        (bitboard_make_move b m.1 m.2 (if ai = 'x' then 'o' else 'x')) ai :=
    mmValHigh_eq_valueHigh (wfBoard_make _ hwf hshape.1 hshape.2.1) (by omega)
  rw [heq]

lemma mmValHigh_scoreSet {b : Bitboard} (ai : Char) (hwf : wfBoard b) :
    scoreSet (mmValHigh b ai) :=
  (value_scoreSet (emptyCount b + 1)).1 b ai hwf (le_refl _)

lemma mmValLow_scoreSet {b : Bitboard} (ai : Char) (hwf : wfBoard b) :
    scoreSet (mmValLow b ai) :=
  (value_scoreSet (emptyCount b + 1)).2 b ai hwf (le_refl _)

/-- The reference values only depend on the player through `charNorm`. -/
lemma value_norm :
    ∀ fuel, (∀ b ai, valueHigh fuel b (charNorm ai) = valueHigh fuel b ai) ∧
      (∀ b ai, valueLow fuel b (charNorm ai) = valueLow fuel b ai) := by
  intro fuel
  induction fuel with
  | zero => exact ⟨fun b ai => rfl, fun b ai => rfl⟩
  | succ f ih =>
    constructor
    · intro b ai
      rw [valueHigh, valueHigh, boardScore_norm]
      by_cases hst : boardScore b ai ≠ 1
      · rw [if_pos hst, if_pos hst]
      · rw [if_neg hst, if_neg hst]
        apply foldl_congr_fn
        intro acc m hm
        rw [bitboard_make_move_norm b m.1 m.2 ai, ih.2 (bitboard_make_move b m.1 m.2 ai) ai]
    · intro b ai
      rw [valueLow, valueLow, boardScore_norm]
      by_cases hst : boardScore b ai ≠ 1
      · rw [if_pos hst, if_pos hst]
      · rw [if_neg hst, if_neg hst]
        have hopp : (if charNorm ai = 'x' then 'o' else 'x') =
            (if ai = 'x' then 'o' else 'x') := by
          unfold charNorm
          by_cases h : ai = 'x' <;> simp [h]
        rw [hopp]
        apply foldl_congr_fn
        intro acc m hm
        rw [ih.1 (bitboard_make_move b m.1 m.2 (if ai = 'x' then 'o' else 'x')) ai]

lemma mmValLow_norm (b : Bitboard) (ai : Char) :
    mmValLow b (charNorm ai) = mmValLow b ai :=
  (value_norm (emptyCount b + 1)).2 b ai

lemma mmValHigh_norm (b : Bitboard) (ai : Char) :
    mmValHigh b (charNorm ai) = mmValHigh b ai :=
  (value_norm (emptyCount b + 1)).1 b ai

/-! ## Perspective duality of the reference values

`valueHigh b q` (mover `q`, maximizing `q`'s score) and `valueLow b p`
(mover the opponent of `p`, minimizing `p`'s score) describe the same mover
whenever `q` is the opponent of `p`; with terminal scores `±100/0` they are
exact negatives, provided the position does not have completed lines for both
players at once (impossible in play, and preserved by play from any position
that is not already decided). -/

/-- The opponent symbol, as computed by the C code (`(p == 'x') ? 'o' : 'x'`). -/
def oppChar (p : Char) : Char := if p = 'x' then 'o' else 'x'

/-- "Not both players have a completed line." -/
def notBothWin (b : Bitboard) : Prop :=
  ¬(bitboard_has_won b.x_pieces = true ∧ bitboard_has_won b.o_pieces = true)

lemma boardScore_continue_masks {b : Bitboard} {ai : Char}
    (h : boardScore b ai = 1) :
    bitboard_has_won b.x_pieces = false ∧ bitboard_has_won b.o_pieces = false := by
  simp only [boardScore] at h
  by_cases hp : ai = 'x' <;> simp only [hp] at h <;>
    split_ifs at h with h1 h2 <;> simp_all <;>
    constructor <;> assumption

lemma notBothWin_of_continue {b : Bitboard} {ai : Char} (h : boardScore b ai = 1) :
    notBothWin b := by
  obtain ⟨h1, h2⟩ := boardScore_continue_masks h
  intro hc
  rw [hc.1] at h1
  cases h1

lemma notBothWin_make {b : Bitboard} {ai : Char} (h : boardScore b ai = 1)
    (r c : Nat) (p : Char) : notBothWin (bitboard_make_move b r c p) := by
  obtain ⟨h1, h2⟩ := boardScore_continue_masks h
  unfold bitboard_make_move
  intro hc
  by_cases hp : p = 'x' <;> simp only [hp, if_true, if_false, reduceIte] at hc
  · rw [h2] at hc
    cases hc.2
  · rw [h1] at hc
    cases hc.1

lemma boardScore_oppChar {b : Bitboard} (p : Char) (hnb : notBothWin b) :
    boardScore b (oppChar p) = (if boardScore b p = 1 then 1 else -boardScore b p) := by
  unfold notBothWin at hnb
  unfold boardScore oppChar
  by_cases hp : p = 'x' <;>
    by_cases hx : bitboard_has_won b.x_pieces <;>
    by_cases ho : bitboard_has_won b.o_pieces <;>
    by_cases hf : b.x_pieces ||| b.o_pieces = VALID_POSITIONS_MASK <;>
    simp_all

lemma max_neg_neg_int (u v : Int) : max (-u) (-v) = -(min u v) := by
  rcases le_total u v with h | h <;> simp [max_def, min_def, h] <;> omega

lemma min_neg_neg_int (u v : Int) : min (-u) (-v) = -(max u v) := by
  rcases le_total u v with h | h <;> simp [max_def, min_def, h] <;> omega

lemma foldl_max_neg (L : List (Nat × Nat)) (g : Nat × Nat → Int) (a : Int) :
    L.foldl (fun acc m => max acc (-(g m))) (-a) =
      -(L.foldl (fun acc m => min acc (g m)) a) := by
  induction L generalizing a with
  | nil => rfl
  | cons m L ih =>
    rw [List.foldl_cons, List.foldl_cons, max_neg_neg_int, ih]

lemma foldl_min_neg (L : List (Nat × Nat)) (g : Nat × Nat → Int) (a : Int) :
    L.foldl (fun acc m => min acc (-(g m))) (-a) =
      -(L.foldl (fun acc m => max acc (g m)) a) := by
  induction L generalizing a with
  | nil => rfl
  | cons m L ih =>
    rw [List.foldl_cons, List.foldl_cons, min_neg_neg_int, ih]

/-- With the opponent as maximizing perspective, the game values negate. -/
lemma value_dual :
    ∀ fuel, (∀ b p, notBothWin b →
        valueHigh fuel b (oppChar p) = -(valueLow fuel b p)) ∧
      (∀ b p, notBothWin b →
        valueLow fuel b (oppChar p) = -(valueHigh fuel b p)) := by
  intro fuel
  induction fuel with
  | zero => exact ⟨fun b p _ => by simp [valueHigh, valueLow],
      fun b p _ => by simp [valueHigh, valueLow]⟩
  | succ f ih =>
    constructor
    · intro b p hnb
      have hvEq := boardScore_oppChar p hnb
      rw [valueHigh, valueLow]
      by_cases hst : boardScore b p = 1
      · rw [if_neg (by rw [hvEq, if_pos hst]; simp), if_neg (by simp [hst])]
        show (findEmptySpots b).foldl
            (fun acc m => max acc
              (valueLow f (bitboard_make_move b m.1 m.2 (oppChar p)) (oppChar p)))
            (-101) =
          -((findEmptySpots b).foldl
            (fun acc m => min acc
              (valueHigh f (bitboard_make_move b m.1 m.2 (oppChar p)) p)) 101)
        rw [← foldl_max_neg (findEmptySpots b)
          (fun m => valueHigh f (bitboard_make_move b m.1 m.2 (oppChar p)) p) 101]
        apply foldl_congr_fn
        intro acc m hm
        rw [ih.2 (bitboard_make_move b m.1 m.2 (oppChar p)) p
          (notBothWin_make hst m.1 m.2 (oppChar p))]
      · have hne : boardScore b (oppChar p) ≠ 1 := by
          rw [hvEq, if_neg hst]
          have hss := boardScore_scoreSet hst
          unfold scoreSet at hss
          omega
        rw [if_pos hne, if_pos hst, hvEq, if_neg hst]
    · intro b p hnb
      have hvEq := boardScore_oppChar p hnb
      rw [valueLow, valueHigh]
      by_cases hst : boardScore b p = 1
      · have hc1 : ¬(boardScore b (oppChar p) ≠ 1) := by
          rw [hvEq, if_pos hst]
          simp
        have hc2 : ¬(boardScore b p ≠ 1) := by simp [hst]
        rw [if_neg hc1, if_neg hc2]
        show (findEmptySpots b).foldl
            (fun acc m => min acc
              (valueHigh f
                (bitboard_make_move b m.1 m.2 (if oppChar p = 'x' then 'o' else 'x'))
                (oppChar p)))
            101 =
          -((findEmptySpots b).foldl
            (fun acc m => max acc
              (valueLow f (bitboard_make_move b m.1 m.2 p) p)) (-101))
        have hpl : (if oppChar p = 'x' then 'o' else 'x') = charNorm p := by
          unfold oppChar charNorm
          by_cases hp : p = 'x' <;> simp [hp]
        rw [hpl]
        have hstep : (findEmptySpots b).foldl
            (fun acc m => min acc
              (valueHigh f (bitboard_make_move b m.1 m.2 (charNorm p)) (oppChar p)))
            101 =
          (findEmptySpots b).foldl
            (fun acc m => min acc
              (-(valueLow f (bitboard_make_move b m.1 m.2 p) p))) 101 := by
          apply foldl_congr_fn
          intro acc m hm
          rw [bitboard_make_move_norm b m.1 m.2 p,
            ih.1 (bitboard_make_move b m.1 m.2 p) p (notBothWin_make hst m.1 m.2 p)]
        rw [hstep]
        conv_lhs => rw [show (101 : Int) = -(-101) by norm_num]
        rw [foldl_min_neg (findEmptySpots b)
          (fun m => valueLow f (bitboard_make_move b m.1 m.2 p) p) (-101)]
      · have hne : boardScore b (oppChar p) ≠ 1 := by
          rw [hvEq, if_neg hst]
          have hss := boardScore_scoreSet hst
          unfold scoreSet at hss
          omega
        rw [if_pos hne, if_pos hst, hvEq, if_neg hst]

/-- Duality at the canonical fuel. -/
lemma mmValHigh_oppChar (b : Bitboard) (p : Char) (hnb : notBothWin b) :
    mmValHigh b (oppChar p) = -(mmValLow b p) :=
  (value_dual (emptyCount b + 1)).1 b p hnb

/-! ## Hash coherence

The incremental hash maintained by the search (`zobrist_toggle` /
`zobrist_toggle_turn`) always equals the from-scratch hash of the current
search state.  A search state records the position, the maximizing-player
flag, and which side is to move (minimize nodes carry the side-to-move
key). -/

/-- A search-node identity: position, maximizing player ('x'?), and whether
this is a minimize node. -/
structure SearchState where
  board : Bitboard
  aiX : Bool
  low : Bool
deriving DecidableEq

/-- The canonical player character of a search state. -/
def stateChar (s : SearchState) : Char := cond s.aiX 'x' 'o'

/-- The from-scratch Zobrist hash of a search state. -/
def hashOfState (ks : ZobristKeys) (s : SearchState) : Nat :=
  if s.low then zobrist_toggle_turn ks (zobrist_hash ks s.board (stateChar s))
  else zobrist_hash ks s.board (stateChar s)

/-- Well-formed search state. -/
def wfState (s : SearchState) : Prop := wfBoard s.board

/-- Collision freedom: on well-formed states the hash is injective.  (The
spec only guarantees this statistically for random keys; every theorem that
relies on cached scores takes it as an explicit hypothesis, and the
perfect-key instantiation below discharges it concretely.) -/
def HInj (ks : ZobristKeys) : Prop :=
  ∀ s t : SearchState, wfState s → wfState t →
    hashOfState ks s = hashOfState ks t → s = t

lemma testBit_lor_shift_self {m k : Nat} : (m ||| 1 <<< k).testBit k = true := by
  rw [Nat.testBit_or, Nat.one_shiftLeft, Nat.testBit_two_pow]
  simp

lemma testBit_lor_shift_other {m k i : Nat} (h : i ≠ k) :
    (m ||| 1 <<< k).testBit i = m.testBit i := by
  rw [Nat.testBit_or, Nat.one_shiftLeft, Nat.testBit_two_pow]
  simp [Ne.symm h]

lemma mask_fold_xor_comm (ks : ZobristKeys) (isX : Bool) (mask : Nat) :
    ∀ (L : List Nat) (h c : Nat),
      L.foldl (fun h i =>
        if mask.testBit i then h ^^^ ks.piece (i / BOARD_SIZE) (i % BOARD_SIZE) isX
        else h) (h ^^^ c) =
      L.foldl (fun h i =>
        if mask.testBit i then h ^^^ ks.piece (i / BOARD_SIZE) (i % BOARD_SIZE) isX
        else h) h ^^^ c := by
  intro L
  induction L with
  | nil => intro h c; rfl
  | cons a L ih =>
    intro h c
    rw [List.foldl_cons, List.foldl_cons]
    by_cases hb : mask.testBit a
    · rw [if_pos hb, if_pos hb, show h ^^^ c ^^^ ks.piece (a / BOARD_SIZE)
        (a % BOARD_SIZE) isX = (h ^^^ ks.piece (a / BOARD_SIZE) (a % BOARD_SIZE) isX)
        ^^^ c by rw [Nat.xor_assoc, Nat.xor_assoc, Nat.xor_comm c], ih]
    · rw [if_neg hb, if_neg hb, ih]

lemma mask_fold_agree_of_not_mem (ks : ZobristKeys) (isX : Bool) {mask k : Nat} :
    ∀ (L : List Nat), k ∉ L → ∀ (h : Nat),
      L.foldl (fun h i =>
        if (mask ||| 1 <<< k).testBit i then
          h ^^^ ks.piece (i / BOARD_SIZE) (i % BOARD_SIZE) isX
        else h) h =
      L.foldl (fun h i =>
        if mask.testBit i then h ^^^ ks.piece (i / BOARD_SIZE) (i % BOARD_SIZE) isX
        else h) h := by
  intro L
  induction L with
  | nil => intro _ h; rfl
  | cons a L ih =>
    intro hk h
    rw [List.foldl_cons, List.foldl_cons,
      testBit_lor_shift_other (by rintro rfl; exact hk (List.mem_cons_self a L))]
    exact ih (fun hm => hk (List.mem_cons_of_mem a hm)) _

lemma mask_fold_or_bit (ks : ZobristKeys) (isX : Bool) {mask k : Nat}
    (hk : k < MAX_MOVES) (hbit : mask.testBit k = false) (h : Nat) :
    zobrist_mask_fold ks isX (mask ||| 1 <<< k) h =
      zobrist_mask_fold ks isX mask h ^^^
        ks.piece (k / BOARD_SIZE) (k % BOARD_SIZE) isX := by
  unfold zobrist_mask_fold
  have key : ∀ (L : List Nat), L.Nodup → k ∈ L → ∀ (h : Nat),
      L.foldl (fun h i =>
        if (mask ||| 1 <<< k).testBit i then
          h ^^^ ks.piece (i / BOARD_SIZE) (i % BOARD_SIZE) isX
        else h) h =
      L.foldl (fun h i =>
        if mask.testBit i then h ^^^ ks.piece (i / BOARD_SIZE) (i % BOARD_SIZE) isX
        else h) h ^^^ ks.piece (k / BOARD_SIZE) (k % BOARD_SIZE) isX := by
    intro L
    induction L with
    | nil => intro _ hk'; cases hk'
    | cons a L ih =>
      intro hnd hk' h
      rcases List.mem_cons.mp hk' with rfl | hkL
      · rw [List.foldl_cons, List.foldl_cons, if_pos testBit_lor_shift_self,
          if_neg (by rw [hbit]; exact Bool.false_ne_true),
          mask_fold_agree_of_not_mem ks isX L (List.Nodup.not_mem hnd) _,
          mask_fold_xor_comm]
      · rw [List.foldl_cons, List.foldl_cons,
          testBit_lor_shift_other (by rintro rfl; exact (List.Nodup.not_mem hnd) hkL)]
        exact ih (List.Nodup.of_cons hnd) hkL _
  exact key (List.range MAX_MOVES) (List.nodup_range MAX_MOVES)
    (List.mem_range.mpr hk) h

/-- Incremental hashing agrees with from-scratch hashing: toggling the piece
key of an empty cell is the same as rehashing the board with the piece
placed. -/
lemma zobrist_hash_make (ks : ZobristKeys) {b : Bitboard} {r c : Nat}
    (ai q : Char) (hmem : (r, c) ∈ findEmptySpots b) :
    zobrist_hash ks (bitboard_make_move b r c q) ai =
      zobrist_toggle ks (zobrist_hash ks b ai) r c q := by
  obtain ⟨hr, hc, hbit⟩ := mem_findEmptySpots.mp hmem
  rw [Nat.testBit_or, Bool.or_eq_false_iff] at hbit
  have hk : r * BOARD_SIZE + c < MAX_MOVES := by
    unfold MAX_MOVES BOARD_SIZE at *
    omega
  have hdiv : (r * BOARD_SIZE + c) / BOARD_SIZE = r := by
    unfold BOARD_SIZE at *
    omega
  have hmod : (r * BOARD_SIZE + c) % BOARD_SIZE = c := by
    unfold BOARD_SIZE at *
    omega
  unfold zobrist_hash zobrist_toggle bitboard_make_move BIT_MASK POS_TO_BIT
  by_cases hq : q = 'x'
  · simp only [hq, if_true, if_false, reduceIte]
    rw [mask_fold_or_bit ks true hk hbit.1, hdiv, hmod,
      show ∀ A k, zobrist_mask_fold ks false b.o_pieces (A ^^^ k) =
          zobrist_mask_fold ks false b.o_pieces A ^^^ k from
        fun A k => mask_fold_xor_comm ks false b.o_pieces (List.range MAX_MOVES) A k]
    simp
  · simp only [hq, if_true, if_false, reduceIte]
    rw [mask_fold_or_bit ks false hk hbit.2, hdiv, hmod]
    simp [hq]

/-- The Zobrist hash only depends on the player through `charNorm`. -/
lemma zobrist_hash_norm (ks : ZobristKeys) (b : Bitboard) (ai : Char) :
    zobrist_hash ks b (charNorm ai) = zobrist_hash ks b ai := by
  unfold zobrist_hash charNorm
  by_cases h : ai = 'x' <;> simp [h]

/-- Hash of the High state reached by the search for `b` with player `ai`. -/
lemma hashOfState_high (ks : ZobristKeys) (b : Bitboard) (ai : Char) :
    hashOfState ks ⟨b, ai = 'x', false⟩ = zobrist_hash ks b ai := by
  unfold hashOfState stateChar
  rw [if_neg (by simp)]
  show zobrist_hash ks b (cond (decide (ai = 'x')) 'x' 'o') = zobrist_hash ks b ai
  rw [show (cond (decide (ai = 'x')) 'x' 'o') = charNorm ai by
    unfold charNorm
    by_cases h : ai = 'x' <;> simp [h], zobrist_hash_norm]

/-- The toggle pair performed by a maximize node's move loop produces exactly
the hash of the child minimize state. -/
lemma hash_step_high (ks : ZobristKeys) {b : Bitboard} {r c : Nat} (ai : Char)
    (hmem : (r, c) ∈ findEmptySpots b) :
    zobrist_toggle_turn ks (zobrist_toggle ks (hashOfState ks ⟨b, ai = 'x', false⟩) r c ai)
      = hashOfState ks ⟨bitboard_make_move b r c ai, ai = 'x', true⟩ := by
  rw [hashOfState_high]
  unfold hashOfState stateChar
  rw [if_pos rfl]
  show zobrist_toggle_turn ks (zobrist_toggle ks (zobrist_hash ks b ai) r c ai) =
    zobrist_toggle_turn ks
      (zobrist_hash ks (bitboard_make_move b r c ai) (cond (decide (ai = 'x')) 'x' 'o'))
  rw [show (cond (decide (ai = 'x')) 'x' 'o') = charNorm ai by
      unfold charNorm
      by_cases h : ai = 'x' <;> simp [h],
    zobrist_hash_norm, zobrist_hash_make ks ai ai hmem]

/-- The toggle pair performed by a minimize node's move loop (the opponent
places a piece; the two side-to-move toggles cancel) produces exactly the
hash of the child maximize state. -/
lemma hash_step_low (ks : ZobristKeys) {b : Bitboard} {r c : Nat} (ai q : Char)
    (hmem : (r, c) ∈ findEmptySpots b) :
    zobrist_toggle_turn ks (zobrist_toggle ks (hashOfState ks ⟨b, ai = 'x', true⟩) r c q)
      = hashOfState ks ⟨bitboard_make_move b r c q, ai = 'x', false⟩ := by
  unfold hashOfState stateChar
  rw [if_pos rfl, if_neg (by simp)]
  show zobrist_toggle_turn ks (zobrist_toggle ks (zobrist_toggle_turn ks
      (zobrist_hash ks b (cond (decide (ai = 'x')) 'x' 'o'))) r c q) =
    zobrist_hash ks (bitboard_make_move b r c q) (cond (decide (ai = 'x')) 'x' 'o')
  rw [zobrist_hash_make ks _ q hmem]
  unfold zobrist_toggle_turn zobrist_toggle
  rw [Nat.xor_assoc, Nat.xor_assoc, Nat.xor_comm ks.turn, Nat.xor_assoc,
    Nat.xor_self, Nat.xor_zero]

/-! ## Transposition-table validity -/

/-- The true game value of a search state. -/
def stateVal (s : SearchState) : Int :=
  if s.low then mmValLow s.board (stateChar s) else mmValHigh s.board (stateChar s)

/-- What a stored bound promises about the state it was computed for. -/
def boundOk (e : TranspositionTableEntry) (s : SearchState) : Prop :=
  match e.ntype with
  | .EXACT => stateVal s = e.score
  | .LOWERBOUND => e.score ≤ stateVal s
  | .UPPERBOUND => stateVal s ≤ e.score

/-- A sound entry: if occupied, it is the record of some well-formed search
state whose full hash it stores, and its bound is true of that state. -/
def entryOk (ks : ZobristKeys) (e : TranspositionTableEntry) : Prop :=
  e.occupied = true → ∃ s, wfState s ∧ hashOfState ks s = e.hash ∧ boundOk e s

/-- Soundness of a whole transposition-table state. -/
def TTValid (ks : ZobristKeys) : TTState → Prop
  | none => True
  | some t => ∀ i, entryOk ks (t.entries i)

lemma TTValid_none (ks : ZobristKeys) : TTValid ks none := trivial

lemma TTValid_init (ks : ZobristKeys) (n : Nat) (ok : Bool) :
    TTValid ks (transposition_table_init n ok) := by
  unfold transposition_table_init
  split_ifs
  · trivial
  · intro i hocc
    cases hocc
  · trivial

lemma TTValid_store {ks : ZobristKeys} {tt : TTState} {h : Nat} {score : Int}
    {ty : TranspositionTableNodeType} (hv : TTValid ks tt) (s : SearchState)
    (hwfs : wfState s) (hh : hashOfState ks s = h)
    (hb : boundOk ⟨h, toInt16 score, 0, ty, true⟩ s) :
    TTValid ks (transposition_table_store tt h score ty) := by
  cases tt with
  | none => trivial
  | some t =>
    intro i hocc
    simp only [transposition_table_store] at hocc ⊢
    by_cases hi : i = (h &&& t.mask)
    · simp only [hi, if_pos rfl] at hocc ⊢
      refine ⟨s, hwfs, hh, ?_⟩
      unfold boundOk at hb ⊢
      cases ty <;> simpa using hb
    · simp only [hi, if_neg hi] at hocc ⊢
      exact hv i hocc

/-- The `(int16_t)` cast is the identity on in-range scores. -/
lemma toInt16_eq_self {v : Int} (h1 : -(2 ^ 15) ≤ v) (h2 : v < 2 ^ 15) :
    toInt16 v = v := by
  unfold toInt16
  omega

/-! ## The fail-soft contract of the alpha-beta search -/

/-- The Knuth–Moore fail-soft relation between a returned score `r` and the
true value `v` under a window `(alpha, beta)`: exact inside the window, a
sound upper bound at or below alpha, a sound lower bound at or above beta. -/
def failSoft (r v alpha beta : Int) : Prop :=
  (v ≤ alpha → r ≤ alpha ∧ v ≤ r) ∧
  (beta ≤ v → beta ≤ r ∧ r ≤ v) ∧
  (alpha < v → v < beta → r = v)

lemma failSoft_refl (v alpha beta : Int) : failSoft v v alpha beta := by
  unfold failSoft
  omega

lemma failSoft_range {r v alpha beta : Int} (hfs : failSoft r v alpha beta)
    (hv : scoreSet v) (h1 : -101 ≤ alpha) (h2 : alpha < 100) (h3 : -100 < beta)
    (h4 : beta ≤ 101) (h5 : alpha < beta) : -100 ≤ r ∧ r ≤ 100 := by
  unfold failSoft at hfs
  unfold scoreSet at hv
  omega

/-- What a usable probe hit tells us about the probed state's true value. -/
lemma probe_some_spec {ks : ZobristKeys} {tt : TTState} {alpha beta r : Int}
    {s0 : SearchState} (hv : TTValid ks tt) (hinj : HInj ks) (hwf : wfState s0)
    (hp : transposition_table_probe tt (hashOfState ks s0) alpha beta = some r) :
    stateVal s0 = r ∨ (r ≤ stateVal s0 ∧ beta ≤ r) ∨ (stateVal s0 ≤ r ∧ r ≤ alpha) := by
  cases tt with
  | none => cases hp
  | some t =>
    rw [probe_hit_iff t _ alpha beta _ rfl] at hp
    split_ifs at hp with hcond
    · obtain ⟨hocc, hhash, hbound⟩ := hcond
      obtain ⟨s1, hwf1, hh1, hb1⟩ := hv _ hocc
      have hs : s1 = s0 := hinj s1 s0 hwf1 hwf (by rw [hh1, hhash])
      subst hs
      injection hp with hp
      unfold boundOk at hb1
      rcases hbound with hty | ⟨hty, hsc⟩ | ⟨hty, hsc⟩ <;> simp only [hty] at hb1
      · left
        rw [hb1, hp]
      · right
        left
        rw [← hp]
        exact ⟨hb1, hsc⟩
      · right
        right
        rw [← hp]
        exact ⟨hb1, hsc⟩

lemma failSoft_of_probe {r v alpha beta : Int} (halphabeta : alpha < beta)
    (h : v = r ∨ (r ≤ v ∧ beta ≤ r) ∨ (v ≤ r ∧ r ≤ alpha)) :
    failSoft r v alpha beta := by
  unfold failSoft
  omega

/-- The state value of a maximize node is `mmValHigh`. -/
lemma stateVal_high (b : Bitboard) (ai : Char) :
    stateVal ⟨b, ai = 'x', false⟩ = mmValHigh b ai := by
  unfold stateVal stateChar
  rw [if_neg (by simp)]
  show mmValHigh b (cond (decide (ai = 'x')) 'x' 'o') = mmValHigh b ai
  rw [show (cond (decide (ai = 'x')) 'x' 'o') = charNorm ai by
    unfold charNorm
    by_cases h : ai = 'x' <;> simp [h], mmValHigh_norm]

/-- The state value of a minimize node is `mmValLow`. -/
lemma stateVal_low (b : Bitboard) (ai : Char) :
    stateVal ⟨b, ai = 'x', true⟩ = mmValLow b ai := by
  unfold stateVal stateChar
  rw [if_pos rfl]
  show mmValLow b (cond (decide (ai = 'x')) 'x' 'o') = mmValLow b ai
  rw [show (cond (decide (ai = 'x')) 'x' 'o') = charNorm ai by
    unfold charNorm
    by_cases h : ai = 'x' <;> simp [h], mmValLow_norm]

lemma foldl_max_le_of {L : List (Nat × Nat)} {g : Nat × Nat → Int} {a c : Int}
    (ha : a ≤ c) (hg : ∀ m ∈ L, g m ≤ c) :
    L.foldl (fun acc m => max acc (g m)) a ≤ c := by
  induction L generalizing a with
  | nil => exact ha
  | cons m L ih =>
    exact ih (max_le ha (hg m (List.mem_cons_self m L)))
      fun m' hm' => hg m' (List.mem_cons_of_mem m hm')

lemma foldl_min_ge_of {L : List (Nat × Nat)} {g : Nat × Nat → Int} {a c : Int}
    (ha : c ≤ a) (hg : ∀ m ∈ L, c ≤ g m) :
    c ≤ L.foldl (fun acc m => min acc (g m)) a := by
  induction L generalizing a with
  | nil => exact ha
  | cons m L ih =>
    exact ih (le_min ha (hg m (List.mem_cons_self m L)))
      fun m' hm' => hg m' (List.mem_cons_of_mem m hm')

/-! ## Fail-soft correctness of the alpha-beta move loops -/

lemma highLoop_spec (ks : ZobristKeys) (b : Bitboard) (ai : Char) (beta : Int)
    (recLow : Bitboard → Int → Int → Nat → TTState → SearchResult)
    (hwf : wfBoard b)
    (hb3 : -100 < beta) (hb4 : beta ≤ 101)
    (Hrec : ∀ (m : Nat × Nat), m ∈ findEmptySpots b → ∀ (alpha' : Int) (tt' : TTState),
      TTValid ks tt' → -101 ≤ alpha' → alpha' < 100 → alpha' < beta →
      TTValid ks (recLow (bitboard_make_move b m.1 m.2 ai) alpha' beta
        (zobrist_toggle_turn ks (zobrist_toggle ks
          (hashOfState ks ⟨b, ai = 'x', false⟩) m.1 m.2 ai)) tt').2 ∧
      failSoft (recLow (bitboard_make_move b m.1 m.2 ai) alpha' beta
        (zobrist_toggle_turn ks (zobrist_toggle ks
          (hashOfState ks ⟨b, ai = 'x', false⟩) m.1 m.2 ai)) tt').1
        (mmValLow (bitboard_make_move b m.1 m.2 ai) ai) alpha' beta) :
    ∀ (moves : List (Nat × Nat)) (best alpha T alpha0 : Int) (tt : TTState),
      (∀ m ∈ moves, m ∈ findEmptySpots b) → TTValid ks tt →
      -101 ≤ alpha0 → alpha0 < 100 →
      alpha0 ≤ alpha → best ≤ alpha → (alpha ≤ alpha0 ∨ alpha ≤ best) →
      alpha < beta →
      -101 ≤ best → best < 100 →
      -101 ≤ T → T ≤ 100 →
      T ≤ best → (best ≤ alpha0 ∨ best ≤ T) →
      TTValid ks (miniMaxHighLoop recLow ks b ai beta
        (hashOfState ks ⟨b, ai = 'x', false⟩) moves best alpha tt).2 ∧
      failSoft (miniMaxHighLoop recLow ks b ai beta
        (hashOfState ks ⟨b, ai = 'x', false⟩) moves best alpha tt).1
        (moves.foldl (fun acc m => max acc
          (mmValLow (bitboard_make_move b m.1 m.2 ai) ai)) T)
        alpha0 beta := by
  intro moves
  induction moves with
  | nil =>
    intro best alpha T alpha0 tt hmv htt h01 h02 hI1 hI2 hI3 hab hB1 hB2 hT1 hT2 hK2 hK1
    rw [miniMaxHighLoop]
    refine ⟨htt, ?_⟩
    unfold failSoft
    simp only [List.foldl_nil]
    omega
  | cons m rest ih =>
    intro best alpha T alpha0 tt hmv htt h01 h02 hI1 hI2 hI3 hab hB1 hB2 hT1 hT2 hK2 hK1
    have hm : m ∈ findEmptySpots b := hmv m (List.mem_cons_self m rest)
    have hmrest : ∀ m' ∈ rest, m' ∈ findEmptySpots b :=
      fun m' hm' => hmv m' (List.mem_cons_of_mem m hm')
    obtain ⟨hrecV, hrecF⟩ := Hrec m hm alpha tt htt (by omega) (by omega) hab
    have hshape := mem_findEmptySpots_shape hm
    have hwfc : wfBoard (bitboard_make_move b m.1 m.2 ai) :=
      wfBoard_make ai hwf hshape.1 hshape.2.1
    have hVmS := mmValLow_scoreSet (b := bitboard_make_move b m.1 m.2 ai) ai hwfc
    unfold scoreSet at hVmS
    have hall : ∀ m' ∈ rest, -100 ≤ mmValLow (bitboard_make_move b m'.1 m'.2 ai) ai ∧
        mmValLow (bitboard_make_move b m'.1 m'.2 ai) ai ≤ 100 := by
      intro m' hm'
      have hshape' := mem_findEmptySpots_shape (hmrest m' hm')
      have hss := mmValLow_scoreSet (b := bitboard_make_move b m'.1 m'.2 ai) ai
        (wfBoard_make ai hwf hshape'.1 hshape'.2.1)
      unfold scoreSet at hss
      omega
    rw [miniMaxHighLoop, List.foldl_cons]
    simp only
    unfold failSoft at hrecF
    set Vm := mmValLow (bitboard_make_move b m.1 m.2 ai) ai with hVm
    set RES := recLow (bitboard_make_move b m.1 m.2 ai) alpha beta
      (zobrist_toggle_turn ks (zobrist_toggle ks
        (hashOfState ks ⟨b, ai = 'x', false⟩) m.1 m.2 ai)) tt with hRES
    set M := max T Vm with hM
    have hMfacts : T ≤ M ∧ Vm ≤ M ∧ (M = T ∨ M = Vm) := by
      rcases max_cases T Vm with ⟨h1, h2⟩ | ⟨h1, h2⟩ <;> rw [hM] <;> omega
    set V := rest.foldl (fun acc m => max acc
      (mmValLow (bitboard_make_move b m.1 m.2 ai) ai)) M with hV
    have hMV : M ≤ V := foldl_max_le_init rest _ M
    have hVub : V ≤ 100 := foldl_max_le_of (by omega) fun m' hm' => (hall m' hm').2
    by_cases hbig : (if RES.1 > best then RES.1 else best) = 100
    · rw [if_pos hbig]
      refine ⟨hrecV, ?_⟩
      have hs100 : RES.1 = 100 := by
        by_cases hgt : RES.1 > best
        · rw [if_pos hgt] at hbig
          exact hbig
        · rw [if_neg hgt] at hbig
          omega
      have hVm100 : Vm = 100 := by omega
      unfold failSoft
      omega
    · rw [if_neg hbig]
      by_cases hcut : beta ≤ (if RES.1 > alpha then RES.1 else alpha)
      · rw [if_pos hcut]
        refine ⟨hrecV, ?_⟩
        have hbs : beta ≤ RES.1 := by
          by_cases hgt : RES.1 > alpha
          · rw [if_pos hgt] at hcut
            exact hcut
          · rw [if_neg hgt] at hcut
            omega
        have hkey : beta ≤ Vm ∧ RES.1 ≤ Vm := by omega
        unfold failSoft
        by_cases hgt : RES.1 > best <;> [rw [if_pos hgt]; rw [if_neg hgt]] <;> omega
      · rw [if_neg hcut]
        have hs_le : RES.1 ≤ 100 ∧ -101 ≤ RES.1 ∧ Vm ≤ RES.1 := by omega
        apply ih _ _ M alpha0 RES.2 hmrest hrecV h01 h02
        · by_cases hgt : RES.1 > alpha <;> [rw [if_pos hgt]; rw [if_neg hgt]] <;> omega
        · by_cases hgt : RES.1 > alpha <;> by_cases hgt2 : RES.1 > best <;>
            simp only [hgt, hgt2, if_true, if_false, reduceIte] <;> omega
        · by_cases hgt : RES.1 > alpha <;> by_cases hgt2 : RES.1 > best <;>
            simp only [hgt, hgt2, if_true, if_false, reduceIte] <;> omega
        · omega
        · by_cases hgt2 : RES.1 > best <;>
            simp only [hgt2, if_true, if_false, reduceIte] <;> omega
        · by_cases hgt2 : RES.1 > best <;>
            simp only [hgt2, if_true, if_false, reduceIte] <;> omega
        · omega
        · omega
        · by_cases hgt2 : RES.1 > best <;>
            simp only [hgt2, if_true, if_false, reduceIte] <;> omega
        · by_cases hgt2 : RES.1 > best <;>
            simp only [hgt2, if_true, if_false, reduceIte] <;> omega

lemma lowLoop_spec (ks : ZobristKeys) (b : Bitboard) (ai opp : Char) (alpha : Int)
    (recHigh : Bitboard → Int → Int → Nat → TTState → SearchResult)
    (hwf : wfBoard b)
    (ha3 : -101 ≤ alpha) (ha4 : alpha < 100)
    (Hrec : ∀ (m : Nat × Nat), m ∈ findEmptySpots b → ∀ (beta' : Int) (tt' : TTState),
      TTValid ks tt' → -100 < beta' → beta' ≤ 101 → alpha < beta' →
      TTValid ks (recHigh (bitboard_make_move b m.1 m.2 opp) alpha beta'
        (zobrist_toggle_turn ks (zobrist_toggle ks
          (hashOfState ks ⟨b, ai = 'x', true⟩) m.1 m.2 opp)) tt').2 ∧
      failSoft (recHigh (bitboard_make_move b m.1 m.2 opp) alpha beta'
        (zobrist_toggle_turn ks (zobrist_toggle ks
          (hashOfState ks ⟨b, ai = 'x', true⟩) m.1 m.2 opp)) tt').1
        (mmValHigh (bitboard_make_move b m.1 m.2 opp) ai) alpha beta') :
    ∀ (moves : List (Nat × Nat)) (best beta T beta0 : Int) (tt : TTState),
      (∀ m ∈ moves, m ∈ findEmptySpots b) → TTValid ks tt →
      -100 < beta0 → beta0 ≤ 101 →
      beta ≤ beta0 → beta ≤ best → (beta0 ≤ beta ∨ best ≤ beta) →
      alpha < beta →
      best ≤ 101 → -100 < best →
      -100 ≤ T → T ≤ 101 →
      best ≤ T → (beta0 ≤ best ∨ T ≤ best) →
      TTValid ks (miniMaxLowLoop recHigh ks b opp alpha
        (hashOfState ks ⟨b, ai = 'x', true⟩) moves best beta tt).2 ∧
      failSoft (miniMaxLowLoop recHigh ks b opp alpha
        (hashOfState ks ⟨b, ai = 'x', true⟩) moves best beta tt).1
        (moves.foldl (fun acc m => min acc
          (mmValHigh (bitboard_make_move b m.1 m.2 opp) ai)) T)
        alpha beta0 := by
  intro moves
  induction moves with
  | nil =>
    intro best beta T beta0 tt hmv htt h01 h02 hI1 hI2 hI3 hab hB1 hB2 hT1 hT2 hK2 hK1
    rw [miniMaxLowLoop]
    refine ⟨htt, ?_⟩
    unfold failSoft
    simp only [List.foldl_nil]
    omega
  | cons m rest ih =>
    intro best beta T beta0 tt hmv htt h01 h02 hI1 hI2 hI3 hab hB1 hB2 hT1 hT2 hK2 hK1
    have hm : m ∈ findEmptySpots b := hmv m (List.mem_cons_self m rest)
    have hmrest : ∀ m' ∈ rest, m' ∈ findEmptySpots b :=
      fun m' hm' => hmv m' (List.mem_cons_of_mem m hm')
    obtain ⟨hrecV, hrecF⟩ := Hrec m hm beta tt htt (by omega) (by omega) hab
    have hshape := mem_findEmptySpots_shape hm
    have hwfc : wfBoard (bitboard_make_move b m.1 m.2 opp) :=
      wfBoard_make opp hwf hshape.1 hshape.2.1
    have hVmS := mmValHigh_scoreSet (b := bitboard_make_move b m.1 m.2 opp) ai hwfc
    unfold scoreSet at hVmS
    have hall : ∀ m' ∈ rest, -100 ≤ mmValHigh (bitboard_make_move b m'.1 m'.2 opp) ai ∧
        mmValHigh (bitboard_make_move b m'.1 m'.2 opp) ai ≤ 100 := by
      intro m' hm'
      have hshape' := mem_findEmptySpots_shape (hmrest m' hm')
      have hss := mmValHigh_scoreSet (b := bitboard_make_move b m'.1 m'.2 opp) ai
        (wfBoard_make opp hwf hshape'.1 hshape'.2.1)
      unfold scoreSet at hss
      omega
    rw [miniMaxLowLoop, List.foldl_cons]
    simp only
    unfold failSoft at hrecF
    set Vm := mmValHigh (bitboard_make_move b m.1 m.2 opp) ai with hVm
    set RES := recHigh (bitboard_make_move b m.1 m.2 opp) alpha beta
      (zobrist_toggle_turn ks (zobrist_toggle ks
        (hashOfState ks ⟨b, ai = 'x', true⟩) m.1 m.2 opp)) tt with hRES
    set M := min T Vm with hM
    have hMfacts : M ≤ T ∧ M ≤ Vm ∧ (M = T ∨ M = Vm) := by
      rcases min_cases T Vm with ⟨h1, h2⟩ | ⟨h1, h2⟩ <;> rw [hM] <;> omega
    set V := rest.foldl (fun acc m => min acc
      (mmValHigh (bitboard_make_move b m.1 m.2 opp) ai)) M with hV
    have hMV : V ≤ M := foldl_min_ge_init rest _ M
    have hVlb : -100 ≤ V := foldl_min_ge_of (by omega) fun m' hm' => (hall m' hm').1
    by_cases hbig : (if RES.1 < best then RES.1 else best) = -100
    · rw [if_pos hbig]
      refine ⟨hrecV, ?_⟩
      have hs100 : RES.1 = -100 := by
        by_cases hgt : RES.1 < best
        · rw [if_pos hgt] at hbig
          exact hbig
        · rw [if_neg hgt] at hbig
          omega
      have hVm100 : Vm = -100 := by omega
      unfold failSoft
      omega
    · rw [if_neg hbig]
      by_cases hcut : (if RES.1 < beta then RES.1 else beta) ≤ alpha
      · rw [if_pos hcut]
        refine ⟨hrecV, ?_⟩
        have hbs : RES.1 ≤ alpha := by
          by_cases hgt : RES.1 < beta
          · rw [if_pos hgt] at hcut
            exact hcut
          · rw [if_neg hgt] at hcut
            omega
        have hkey : Vm ≤ alpha ∧ Vm ≤ RES.1 := by omega
        unfold failSoft
        by_cases hgt : RES.1 < best <;> [rw [if_pos hgt]; rw [if_neg hgt]] <;> omega
      · rw [if_neg hcut]
        have hs_le : -100 ≤ RES.1 ∧ RES.1 ≤ 101 ∧ RES.1 ≤ Vm := by omega
        apply ih _ _ M beta0 RES.2 hmrest hrecV h01 h02
        · by_cases hgt : RES.1 < beta <;> [rw [if_pos hgt]; rw [if_neg hgt]] <;> omega
        · by_cases hgt : RES.1 < beta <;> by_cases hgt2 : RES.1 < best <;>
            simp only [hgt, hgt2, if_true, if_false, reduceIte] <;> omega
        · by_cases hgt : RES.1 < beta <;> by_cases hgt2 : RES.1 < best <;>
            simp only [hgt, hgt2, if_true, if_false, reduceIte] <;> omega
        · omega
        · by_cases hgt2 : RES.1 < best <;>
            simp only [hgt2, if_true, if_false, reduceIte] <;> omega
        · by_cases hgt2 : RES.1 < best <;>
            simp only [hgt2, if_true, if_false, reduceIte] <;> omega
        · omega
        · omega
        · by_cases hgt2 : RES.1 < best <;>
            simp only [hgt2, if_true, if_false, reduceIte] <;> omega
        · by_cases hgt2 : RES.1 < best <;>
            simp only [hgt2, if_true, if_false, reduceIte] <;> omega

/-- Fail-soft specification of the maximize ply at a given fuel. -/
def SpecHigh (ks : ZobristKeys) (fuel : Nat) : Prop :=
  ∀ b ai alpha beta tt, wfBoard b → emptyCount b + 1 ≤ fuel → TTValid ks tt →
    -101 ≤ alpha → alpha < 100 → -100 < beta → beta ≤ 101 → alpha < beta →
    TTValid ks (miniMaxHigh ks fuel b ai alpha beta
      (hashOfState ks ⟨b, ai = 'x', false⟩) tt).2 ∧
    failSoft (miniMaxHigh ks fuel b ai alpha beta
      (hashOfState ks ⟨b, ai = 'x', false⟩) tt).1
      (mmValHigh b ai) alpha beta

/-- Fail-soft specification of the minimize ply at a given fuel. -/
def SpecLow (ks : ZobristKeys) (fuel : Nat) : Prop :=
  ∀ b ai alpha beta tt, wfBoard b → emptyCount b + 1 ≤ fuel → TTValid ks tt →
    -101 ≤ alpha → alpha < 100 → -100 < beta → beta ≤ 101 → alpha < beta →
    TTValid ks (miniMaxLow ks fuel b ai alpha beta
      (hashOfState ks ⟨b, ai = 'x', true⟩) tt).2 ∧
    failSoft (miniMaxLow ks fuel b ai alpha beta
      (hashOfState ks ⟨b, ai = 'x', true⟩) tt).1
      (mmValLow b ai) alpha beta

lemma high_node (ks : ZobristKeys) (hinj : HInj ks) (f : Nat)
    (IH : SpecLow ks f) : SpecHigh ks (f + 1) := by
  intro b ai alpha beta tt hwf hfuel htt ha1 ha2 hb1 hb2 hab
  have hVS := mmValHigh_scoreSet (b := b) ai hwf
  rw [miniMaxHigh]
  cases hpr : transposition_table_probe tt
      (hashOfState ks ⟨b, ai = 'x', false⟩) alpha beta with
  | some s =>
    simp only
    refine ⟨htt, ?_⟩
    have hdisj := probe_some_spec htt hinj
      (show wfState ⟨b, ai = 'x', false⟩ from hwf) hpr
    rw [stateVal_high] at hdisj
    exact failSoft_of_probe hab hdisj
  | none =>
    simp only
    by_cases hst : boardScore b ai ≠ 1
    · rw [if_pos hst]
      have hterm := mmValHigh_terminal hst
      have hrange := boardScore_scoreSet hst
      unfold scoreSet at hrange
      constructor
      · apply TTValid_store htt ⟨b, ai = 'x', false⟩ hwf rfl
        unfold boundOk
        simp only
        rw [stateVal_high, hterm, toInt16_eq_self (by omega) (by omega)]
      · rw [hterm]
        exact failSoft_refl _ alpha beta
    · rw [if_neg hst]
      push_neg at hst
      have hne := findEmptySpots_ne_nil hwf hst
      have hloop := highLoop_spec ks b ai beta
        (fun b' a bta h t => miniMaxLow ks f b' ai a bta h t) hwf hb1 hb2
        (by
          intro m hm alpha' tt' htt' hA1 hA2 hA3
          have hshape := mem_findEmptySpots_shape hm
          have hwfc := wfBoard_make ai hwf hshape.1 hshape.2.1
          have hfc : emptyCount (bitboard_make_move b m.1 m.2 ai) + 1 ≤ f := by
            have := emptyCount_make_lt (b := b) (m := m) ai hm
            omega
          simp only
          rw [hash_step_high ks ai hm]
          exact IH (bitboard_make_move b m.1 m.2 ai) ai alpha' beta tt' hwfc hfc htt'
            hA1 hA2 hb1 hb2 hA3)
        (findEmptySpots b) (-101) alpha (-101) alpha tt
        (fun _ h => h) htt ha1 ha2 (by omega) (by omega) (Or.inl le_rfl) hab
        (by omega) (by omega) (by omega) (by omega) (by omega) (Or.inl (by omega))
      rw [← mmValHigh_step hwf hst] at hloop
      obtain ⟨hloopV, hloopF⟩ := hloop
      have hrange := failSoft_range hloopF hVS ha1 ha2 hb1 hb2 hab
      refine ⟨?_, hloopF⟩
      apply TTValid_store hloopV ⟨b, ai = 'x', false⟩ hwf rfl
      unfold boundOk failSoft at *
      rw [stateVal_high]
      split_ifs with hc1 hc2 <;> simp only <;>
        rw [toInt16_eq_self (by omega) (by omega)] <;> omega

lemma low_node (ks : ZobristKeys) (hinj : HInj ks) (f : Nat)
    (IH : SpecHigh ks f) : SpecLow ks (f + 1) := by
  intro b ai alpha beta tt hwf hfuel htt ha1 ha2 hb1 hb2 hab
  have hVS := mmValLow_scoreSet (b := b) ai hwf
  rw [miniMaxLow]
  cases hpr : transposition_table_probe tt
      (hashOfState ks ⟨b, ai = 'x', true⟩) alpha beta with
  | some s =>
    simp only
    refine ⟨htt, ?_⟩
    have hdisj := probe_some_spec htt hinj
      (show wfState ⟨b, ai = 'x', true⟩ from hwf) hpr
    rw [stateVal_low] at hdisj
    exact failSoft_of_probe hab hdisj
  | none =>
    simp only
    by_cases hst : boardScore b ai ≠ 1
    · rw [if_pos hst]
      have hterm := mmValLow_terminal hst
      have hrange := boardScore_scoreSet hst
      unfold scoreSet at hrange
      constructor
      · apply TTValid_store htt ⟨b, ai = 'x', true⟩ hwf rfl
        unfold boundOk
        simp only
        rw [stateVal_low, hterm, toInt16_eq_self (by omega) (by omega)]
      · rw [hterm]
        exact failSoft_refl _ alpha beta
    · rw [if_neg hst]
      push_neg at hst
      have hne := findEmptySpots_ne_nil hwf hst
      have hloop := lowLoop_spec ks b ai (if ai = 'x' then 'o' else 'x') alpha
        (fun b' a bta h t => miniMaxHigh ks f b' ai a bta h t) hwf ha1 ha2
        (by
          intro m hm beta' tt' htt' hA1 hA2 hA3
          have hshape := mem_findEmptySpots_shape hm
          have hwfc := wfBoard_make (if ai = 'x' then 'o' else 'x') hwf hshape.1 hshape.2.1
          have hfc : emptyCount
              (bitboard_make_move b m.1 m.2 (if ai = 'x' then 'o' else 'x')) + 1 ≤ f := by
            have := emptyCount_make_lt (b := b) (m := m) (if ai = 'x' then 'o' else 'x') hm
            omega
          simp only
          rw [hash_step_low ks ai (if ai = 'x' then 'o' else 'x') hm]
          exact IH (bitboard_make_move b m.1 m.2 (if ai = 'x' then 'o' else 'x')) ai
            alpha beta' tt' hwfc hfc htt' ha1 ha2 hA1 hA2 hA3)
        (findEmptySpots b) 101 beta 101 beta tt
        (fun _ h => h) htt hb1 hb2 (by omega) (by omega) (Or.inl le_rfl) hab
        (by omega) (by omega) (by omega) (by omega) (by omega) (Or.inl (by omega))
      rw [← mmValLow_step hwf hst] at hloop
      obtain ⟨hloopV, hloopF⟩ := hloop
      have hrange := failSoft_range hloopF hVS ha1 ha2 hb1 hb2 hab
      refine ⟨?_, hloopF⟩
      apply TTValid_store hloopV ⟨b, ai = 'x', true⟩ hwf rfl
      set RES := (miniMaxLowLoop
        (fun b' a bta h t => miniMaxHigh ks f b' ai a bta h t)
        ks b (if ai = 'x' then 'o' else 'x') alpha
        (hashOfState ks ⟨b, ai = 'x', true⟩) (findEmptySpots b) 101 beta tt).1 with hRES
      unfold boundOk failSoft at *
      rw [stateVal_low]
      split_ifs with hc1 hc2 <;> simp only <;>
        rw [toInt16_eq_self (by omega) (by omega)] <;> omega

/-- The central correctness theorem of the search: with collision-free keys
and a sound table, both plies return fail-soft correct scores and preserve
table soundness, at every sufficient fuel. -/
lemma miniMax_spec (ks : ZobristKeys) (hinj : HInj ks) :
    ∀ fuel, SpecHigh ks fuel ∧ SpecLow ks fuel := by
  intro fuel
  induction fuel with
  | zero =>
    constructor
    · intro b ai alpha beta tt hwf hfuel
      exact absurd hfuel (by omega)
    · intro b ai alpha beta tt hwf hfuel
      exact absurd hfuel (by omega)
  | succ f ih =>
    exact ⟨high_node ks hinj f ih.2, low_node ks hinj f ih.1⟩

/-! ## The root: `getAiMove` computes `selectMove` -/

lemma emptyCount_le (b : Bitboard) : emptyCount b ≤ MAX_MOVES := by
  unfold emptyCount findEmptySpots
  exact le_trans (List.length_filterMap_le _ _) (by rw [List.length_range])

/-- The hash `getAiMove` seeds the search with is the from-scratch hash of the
root (maximize, non-low) state. -/
lemma hashOfState_root (ks : ZobristKeys) (b : Bitboard) (ai : Char) :
    hashOfState ks ⟨b, ai = 'x', false⟩ = zobrist_hash ks b ai := by
  unfold hashOfState stateChar zobrist_hash
  by_cases h : ai = 'x' <;> simp [h]

lemma selectFirstMax_stable (b : Bitboard) (ai : Char) :
    ∀ (moves : List (Nat × Nat)) (bm : Int × Int) (bs : Int),
      (∀ m ∈ moves, ¬childVal b ai m > bs) →
      selectFirstMax b ai moves bm bs = bm := by
  intro moves
  induction moves with
  | nil => intro bm bs _; rfl
  | cons m rest ih =>
    intro bm bs hall
    rw [selectFirstMax, if_neg (hall m (by simp))]
    by_cases h100 : bs = 100
    · rw [if_pos h100]
    · rw [if_neg h100]
      exact ih bm bs (fun m' hm' => hall m' (by simp [hm']))

/-- What the root scan selects: the first strict improver of the running max
that no later move strictly beats — i.e. the first argmax among the moves
that beat the initial score. -/
lemma selectFirstMax_spec (b : Bitboard) (ai : Char) :
    ∀ (moves : List (Nat × Nat)) (bm : Int × Int) (bs : Int),
      (∀ m ∈ moves, -100 ≤ childVal b ai m ∧ childVal b ai m ≤ 100) →
      -101 ≤ bs → bs < 100 →
      (∃ m ∈ moves, bs < childVal b ai m) →
      ∃ pre mv post, moves = pre ++ mv :: post ∧
        selectFirstMax b ai moves bm bs = ((mv.1 : Int), (mv.2 : Int)) ∧
        bs < childVal b ai mv ∧
        (∀ m' ∈ pre, childVal b ai m' < childVal b ai mv) ∧
        (∀ m' ∈ post, childVal b ai m' ≤ childVal b ai mv) := by
  intro moves
  induction moves with
  | nil =>
    intro bm bs _ _ _ himp
    obtain ⟨m, hm, _⟩ := himp
    cases hm
  | cons m rest ih =>
    intro bm bs hall h1 h2 himp
    by_cases hgt : childVal b ai m > bs
    · by_cases h100 : childVal b ai m = 100
      · refine ⟨[], m, rest, rfl, ?_, hgt, by simp, ?_⟩
        · rw [selectFirstMax, if_pos hgt, if_pos h100]
        · intro m' hm'
          have := (hall m' (by simp [hm'])).2
          omega
      · have hm0 := hall m (by simp)
        by_cases himp2 : ∃ m' ∈ rest, childVal b ai m < childVal b ai m'
        · obtain ⟨pre, mv, post, heq, hres, hlt, hpre, hpost⟩ :=
            ih ((m.1 : Int), (m.2 : Int)) (childVal b ai m)
              (fun m' hm' => hall m' (by simp [hm'])) (by omega) (by omega) himp2
          refine ⟨m :: pre, mv, post, by rw [heq, List.cons_append], ?_, by omega, ?_, hpost⟩
          · rw [selectFirstMax, if_pos hgt, if_neg h100]
            exact hres
          · intro m' hm'
            rcases List.mem_cons.mp hm' with h | h
            · subst h; omega
            · exact hpre m' h
        · push_neg at himp2
          refine ⟨[], m, rest, rfl, ?_, hgt, by simp, himp2⟩
          rw [selectFirstMax, if_pos hgt, if_neg h100]
          exact selectFirstMax_stable b ai rest _ _
            (fun m' hm' => by have := himp2 m' hm'; omega)
    · have himp' : ∃ m' ∈ rest, bs < childVal b ai m' := by
        obtain ⟨m', hm', hv⟩ := himp
        rcases List.mem_cons.mp hm' with h | h
        · subst h; omega
        · exact ⟨m', h, hv⟩
      obtain ⟨pre, mv, post, heq, hres, hlt, hpre, hpost⟩ :=
        ih bm bs (fun m' hm' => hall m' (by simp [hm'])) h1 h2 himp'
      refine ⟨m :: pre, mv, post, by rw [heq, List.cons_append], ?_, hlt, ?_, hpost⟩
      · rw [selectFirstMax, if_neg hgt, if_neg (by omega)]
        exact hres
      · intro m' hm'
        rcases List.mem_cons.mp hm' with h | h
        · subst h; omega
        · exact hpre m' h

/-- The root loop of `getAiMove` selects exactly `selectFirstMax` of the exact
child values — independently of the transposition-table state — and preserves
table soundness.  (The `bestScore` and `alpha` slots of the C root loop are
always equal: both start at `-INF` and are both set to `score` together.) -/
lemma getAiMoveLoop_spec (ks : ZobristKeys) (hinj : HInj ks) (b : Bitboard)
    (ai : Char) (hwf : wfBoard b) :
    ∀ (moves : List (Nat × Nat)) (bm : Int × Int) (bs : Int) (tt : TTState),
      (∀ m ∈ moves, m ∈ findEmptySpots b) → TTValid ks tt →
      -101 ≤ bs → bs < 100 →
      (getAiMoveLoop (fun b' a bta h t => miniMaxLow ks MAX_MOVES b' ai a bta h t)
        ks b ai 101 (hashOfState ks ⟨b, ai = 'x', false⟩) moves bm bs bs tt).1
        = selectFirstMax b ai moves bm bs ∧
      TTValid ks
        (getAiMoveLoop (fun b' a bta h t => miniMaxLow ks MAX_MOVES b' ai a bta h t)
          ks b ai 101 (hashOfState ks ⟨b, ai = 'x', false⟩) moves bm bs bs tt).2 := by
  intro moves
  induction moves with
  | nil =>
    intro bm bs tt _ htt _ _
    rw [getAiMoveLoop, selectFirstMax]
    exact ⟨rfl, htt⟩
  | cons m rest ih =>
    intro bm bs tt hmv htt h1 h2
    have hm : m ∈ findEmptySpots b := hmv m (by simp)
    have hshape := mem_findEmptySpots_shape hm
    have hwfc := wfBoard_make ai hwf hshape.1 hshape.2.1
    have hfc : emptyCount (bitboard_make_move b m.1 m.2 ai) + 1 ≤ MAX_MOVES := by
      have h9 := emptyCount_le b
      have := emptyCount_make_lt (b := b) (m := m) ai hm
      omega
    obtain ⟨httc, hfsc⟩ :=
      (miniMax_spec ks hinj MAX_MOVES).2 (bitboard_make_move b m.1 m.2 ai) ai
        bs 101 tt hwfc hfc htt h1 h2 (by omega) (by omega) (by omega)
    have hVr := mmValLow_scoreSet (b := bitboard_make_move b m.1 m.2 ai) ai hwfc
    unfold scoreSet at hVr
    unfold failSoft at hfsc
    have hcv : childVal b ai m = mmValLow (bitboard_make_move b m.1 m.2 ai) ai := rfl
    rw [getAiMoveLoop, selectFirstMax]
    rw [hash_step_high ks ai hm]
    by_cases hgt : childVal b ai m > bs
    · have hscore : (miniMaxLow ks MAX_MOVES (bitboard_make_move b m.1 m.2 ai) ai bs
          101 (hashOfState ks ⟨bitboard_make_move b m.1 m.2 ai, ai = 'x', true⟩)
          tt).1 = childVal b ai m := by
        rw [hcv] at hgt ⊢
        exact hfsc.2.2 hgt (by omega)
      rw [hscore]
      simp only [if_pos hgt]
      by_cases h100 : childVal b ai m = 100
      · simp only [if_pos h100]
        exact ⟨trivial, httc⟩
      · simp only [if_neg h100]
        exact ih ((m.1 : Int), (m.2 : Int)) (childVal b ai m) _
          (fun m' hm' => hmv m' (by simp [hm'])) httc (by rw [hcv]; omega)
          (by rw [hcv] at h100 ⊢; omega)
    · have hscore : ¬((miniMaxLow ks MAX_MOVES (bitboard_make_move b m.1 m.2 ai) ai bs
          101 (hashOfState ks ⟨bitboard_make_move b m.1 m.2 ai, ai = 'x', true⟩)
          tt).1 > bs) := by
        rw [hcv] at hgt
        have := hfsc.1 (by omega)
        omega
      rw [if_neg hscore]
      simp only [if_neg hgt, if_neg (by omega : ¬bs = 100)]
      exact ih bm bs _ (fun m' hm' => hmv m' (by simp [hm'])) httc h1 h2

/-- `getAiMove` returns `selectMove` — a pure function of the position and the
AI symbol — for every sound transposition-table state, and preserves table
soundness. -/
lemma getAiMove_spec (ks : ZobristKeys) (hinj : HInj ks) {tt : TTState}
    (htt : TTValid ks tt) (b : Bitboard) (ai : Char) (hwf : wfBoard b) :
    (getAiMove ks tt b ai).1 = selectMove b ai ∧
      TTValid ks (getAiMove ks tt b ai).2 := by
  simp only [getAiMove, selectMove]
  split_ifs with hov hterm hfull hone
  · exact ⟨rfl, htt⟩
  · exact ⟨rfl, htt⟩
  · exact ⟨rfl, htt⟩
  · exact ⟨rfl, htt⟩
  · rw [← hashOfState_root]
    exact getAiMoveLoop_spec ks hinj b ai hwf (findEmptySpots b) (-1, -1) (-101) tt
      (fun _ h => h) htt (by omega) (by omega)

/-! ## Self-play: perfect play from the post-center positions always ties -/

lemma boardScore_nonwin_masks {b : Bitboard} {ai : Char}
    (h : boardScore b ai = 0 ∨ boardScore b ai = 1) :
    bitboard_has_won b.x_pieces = false ∧ bitboard_has_won b.o_pieces = false := by
  simp only [boardScore] at h
  by_cases hp : ai = 'x' <;> simp only [hp] at h <;>
    split_ifs at h with h1 h2 <;> simp_all <;>
    constructor <;> assumption

lemma boardScore_continue_of {b : Bitboard} (ai : Char)
    (hx : bitboard_has_won b.x_pieces = false)
    (ho : bitboard_has_won b.o_pieces = false)
    (hnf : b.x_pieces ||| b.o_pieces ≠ VALID_POSITIONS_MASK) :
    boardScore b ai = 1 := by
  unfold boardScore
  by_cases hp : ai = 'x' <;> simp [hp, hx, ho, hnf]

lemma mmValHigh_zero_score {b : Bitboard} {turn : Char}
    (h : mmValHigh b turn = 0) :
    boardScore b turn = 0 ∨ boardScore b turn = 1 := by
  by_cases hst : boardScore b turn = 1
  · right; exact hst
  · left
    rw [← mmValHigh_terminal hst]
    exact h

lemma land_testBit_zero {a b : Nat} (h : a &&& b = 0) (i : Nat) :
    (a.testBit i && b.testBit i) = false := by
  have h' := congrArg (Nat.testBit · i) h
  simpa [Nat.testBit_and] using h'

/-- Playing on a listed empty cell keeps the two occupancy masks disjoint. -/
lemma overlap_make {b : Bitboard} {m : Nat × Nat} (p : Char)
    (hmem : m ∈ findEmptySpots b) (hd : b.x_pieces &&& b.o_pieces = 0) :
    (bitboard_make_move b m.1 m.2 p).x_pieces &&&
      (bitboard_make_move b m.1 m.2 p).o_pieces = 0 := by
  have hbit := (mem_findEmptySpots_shape hmem).2.2
  rw [Nat.testBit_or, Bool.or_eq_false_iff] at hbit
  obtain ⟨hbx, hbo⟩ := hbit
  unfold bitboard_make_move BIT_MASK POS_TO_BIT
  split_ifs with hp <;> apply Nat.eq_of_testBit_eq <;> intro i <;>
    rw [Nat.zero_testBit, Nat.testBit_and]
  · by_cases hik : i = m.1 * BOARD_SIZE + m.2
    · subst hik
      rw [hbo, Bool.and_false]
    · rw [testBit_lor_shift_other hik]
      exact land_testBit_zero hd i
  · by_cases hik : i = m.1 * BOARD_SIZE + m.2
    · subst hik
      rw [hbx, Bool.false_and]
    · rw [testBit_lor_shift_other hik]
      exact land_testBit_zero hd i

lemma childVal_scoreSet {b : Bitboard} {ai : Char} {m : Nat × Nat}
    (hwf : wfBoard b) (hm : m ∈ findEmptySpots b) :
    scoreSet (childVal b ai m) := by
  have hshape := mem_findEmptySpots_shape hm
  exact mmValLow_scoreSet ai (wfBoard_make ai hwf hshape.1 hshape.2.1)

lemma mmValHigh_step_childVal {b : Bitboard} {ai : Char} (hwf : wfBoard b)
    (hst : boardScore b ai = 1) :
    mmValHigh b ai = (findEmptySpots b).foldl
      (fun acc m => max acc (childVal b ai m)) (-101) := by
  rw [mmValHigh_step hwf hst]
  exact foldl_congr_fn (fun acc m _ => rfl)

/-- The maximum of the selected move: any move the root scan can select whose
value dominates all listed moves has exactly the game value. -/
lemma childVal_eq_of_max {b : Bitboard} {turn : Char} {mv : Nat × Nat}
    (hwf : wfBoard b) (hst : boardScore b turn = 1)
    (hmem : mv ∈ findEmptySpots b)
    (hmax : ∀ m' ∈ findEmptySpots b, childVal b turn m' ≤ childVal b turn mv) :
    childVal b turn mv = mmValHigh b turn := by
  have hss : scoreSet (childVal b turn mv) := childVal_scoreSet hwf hmem
  unfold scoreSet at hss
  have h1 := foldl_max_le_mem (g := childVal b turn) (a := (-101 : Int)) hmem
  have h2 := foldl_max_le_of (show (-101 : Int) ≤ childVal b turn mv by omega) hmax
  rw [mmValHigh_step_childVal hwf hst]
  omega

/-- Every game of the self-play driver from a sound mid-game state — a
well-formed, non-overlapping position that is a draw under perfect play for
the side to move — ends in a tie, and keeps the table sound. -/
lemma selfPlay_tie_loop (ks : ZobristKeys) (hinj : HInj ks) :
    ∀ (fuel : Nat) (b : Bitboard) (turn : Char) (tt : TTState),
      wfBoard b → b.x_pieces &&& b.o_pieces = 0 →
      emptyCount b ≤ 8 → emptyCount b + 1 ≤ fuel →
      (turn = 'x' ∨ turn = 'o') → TTValid ks tt →
      mmValHigh b turn = 0 →
      (selfPlayLoop ks fuel b turn tt).1 = GameOutcome.tie ∧
        TTValid ks (selfPlayLoop ks fuel b turn tt).2 := by
  intro fuel
  induction fuel with
  | zero =>
    intro b turn tt _ _ _ hf
    exact absurd hf (by omega)
  | succ f ih =>
    intro b turn tt hwf hd hcnt hfuel hturn htt hval
    have hbs := mmValHigh_zero_score hval
    have hmasks := boardScore_nonwin_masks hbs
    rw [selfPlayLoop]
    rw [if_neg (by simp [hmasks.1]), if_neg (by simp [hmasks.2])]
    by_cases hfull : b.x_pieces ||| b.o_pieces = VALID_POSITIONS_MASK
    · rw [if_pos hfull]
      exact ⟨rfl, htt⟩
    · rw [if_neg hfull]
      have hst := boardScore_continue_of turn hmasks.1 hmasks.2 hfull
      obtain ⟨hmove, httA⟩ := getAiMove_spec ks hinj htt b turn hwf
      have hne := findEmptySpots_ne_nil hwf hst
      have hc1 : 1 ≤ emptyCount b := by
        unfold emptyCount
        have := List.length_pos.mpr hne
        omega
      have hoverlap_cond : ¬(b.x_pieces &&& b.o_pieces ≠ 0) := by simp [hd]
      have hterm_cond : ¬(boardScore b turn ≠ 1) := by simp [hst]
      have hnotmax : ¬((findEmptySpots b).length = MAX_MOVES) := by
        unfold emptyCount at hcnt
        unfold MAX_MOVES BOARD_SIZE at *
        omega
      have hsel : ∃ mv ∈ findEmptySpots b,
          selectMove b turn = ((mv.1 : Int), (mv.2 : Int)) ∧
          childVal b turn mv = 0 := by
        by_cases hone : (findEmptySpots b).length = 1
        · obtain ⟨mv, hmveq⟩ := List.length_eq_one.mp hone
          have hmvmem : mv ∈ findEmptySpots b := by
            rw [hmveq]
            exact List.mem_cons_self mv []
          refine ⟨mv, hmvmem, ?_, ?_⟩
          · unfold selectMove
            rw [if_neg hoverlap_cond, if_neg hterm_cond, if_neg hnotmax,
              if_pos hone, hmveq]
          · rw [childVal_eq_of_max hwf hst hmvmem ?_, hval]
            intro m' hm'
            rw [hmveq, List.mem_singleton] at hm'
            subst hm'
            exact le_refl _
        · have hall : ∀ m ∈ findEmptySpots b,
              -100 ≤ childVal b turn m ∧ childVal b turn m ≤ 100 := by
            intro m hm
            have h : scoreSet (childVal b turn m) := childVal_scoreSet hwf hm
            unfold scoreSet at h
            omega
          have himp : ∃ m ∈ findEmptySpots b, (-101 : Int) < childVal b turn m := by
            obtain ⟨a, ha⟩ := List.exists_mem_of_ne_nil _ hne
            have h : scoreSet (childVal b turn a) := childVal_scoreSet hwf ha
            unfold scoreSet at h
            exact ⟨a, ha, by omega⟩
          obtain ⟨pre, mv, post, heq, hres, hgt, hpre, hpost⟩ :=
            selectFirstMax_spec b turn (findEmptySpots b) (-1, -1) (-101)
              hall (by omega) (by omega) himp
          have hmvmem : mv ∈ findEmptySpots b := by
            rw [heq]
            simp
          refine ⟨mv, hmvmem, ?_, ?_⟩
          · unfold selectMove
            rw [if_neg hoverlap_cond, if_neg hterm_cond, if_neg hnotmax,
              if_neg hone]
            exact hres
          · rw [childVal_eq_of_max hwf hst hmvmem ?_, hval]
            intro m' hm'
            rw [heq] at hm'
            rcases List.mem_append.mp hm' with h | h
            · exact le_of_lt (hpre m' h)
            · rcases List.mem_cons.mp h with h' | h'
              · subst h'
                exact le_refl _
              · exact hpost m' h'
      obtain ⟨mv, hmvmem, hselE, hcv0⟩ := hsel
      have hshape := mem_findEmptySpots_shape hmvmem
      simp only [hmove, hselE]
      rw [if_neg (by
        push_neg
        exact ⟨Int.natCast_nonneg mv.1, Int.natCast_nonneg mv.2⟩)]
      have hnb : notBothWin (bitboard_make_move b mv.1 mv.2 turn) :=
        notBothWin_make hst mv.1 mv.2 turn
      have hvchild : mmValHigh (bitboard_make_move b mv.1 mv.2 turn) (oppChar turn)
          = 0 := by
        rw [mmValHigh_oppChar _ turn hnb]
        have : childVal b turn mv
            = mmValLow (bitboard_make_move b mv.1 mv.2 turn) turn := rfl
        omega
      have hlt := emptyCount_make_lt (b := b) (m := mv) turn hmvmem
      exact ih (bitboard_make_move b mv.1 mv.2 turn)
        (if turn = 'x' then 'o' else 'x')
        (getAiMove ks tt b turn).2
        (wfBoard_make turn hwf hshape.1 hshape.2.1)
        (overlap_make turn hmvmem hd)
        (by omega) (by omega)
        (by rcases hturn with h | h <;> subst h <;> simp)
        httA hvchild

/-! ## The perfect keys are collision-free -/

lemma fold_xor_range (off : Nat) :
    ∀ (n : Nat) (h m : Nat),
      (List.range n).foldl
        (fun h i => if m.testBit i then h ^^^ 2 ^ (i + off) else h) h
        = h ^^^ ((m % 2 ^ n) <<< off) := by
  intro n
  induction n with
  | zero =>
    intro h m
    simp [Nat.mod_one]
  | succ n ih =>
    intro h m
    rw [List.range_succ, List.foldl_append, ih, List.foldl_cons, List.foldl_nil]
    by_cases hb : m.testBit n
    · rw [if_pos hb, Nat.xor_assoc]
      congr 1
      apply Nat.eq_of_testBit_eq
      intro j
      rw [Nat.testBit_xor, Nat.testBit_shiftLeft, Nat.testBit_shiftLeft,
        Nat.testBit_two_pow, Nat.testBit_mod_two_pow, Nat.testBit_mod_two_pow]
      by_cases hoff : j ≥ off
      · simp only [hoff, decide_True, Bool.true_and]
        by_cases hjn : j - off = n
        · have h1 : n + off = j := by omega
          have h2 : ¬(j - off < n) := by omega
          have h3 : j - off < n + 1 := by omega
          simp [h1, h2, h3, hjn, hb]
        · have h1 : ¬(n + off = j) := by omega
          have h2 : decide (j - off < n) = decide (j - off < n + 1) := by
            simp only [decide_eq_decide]
            omega
          simp only [h1, decide_False, Bool.xor_false, h2]
      · have h1 : ¬(n + off = j) := by omega
        simp [hoff, h1]
    · rw [if_neg hb]
      rw [Bool.not_eq_true] at hb
      congr 2
      apply Nat.eq_of_testBit_eq
      intro j
      rw [Nat.testBit_mod_two_pow, Nat.testBit_mod_two_pow]
      by_cases hj : j = n
      · subst hj
        simp [hb]
      · have h2 : decide (j < n) = decide (j < n + 1) := by
          simp only [decide_eq_decide]
          omega
        rw [h2]

/-- Closed form of the piece-key fold for the perfect keys: it XORs the
(truncated, shifted) occupancy mask straight into the hash. -/
lemma mask_fold_kP (isX : Bool) (m h : Nat) :
    zobrist_mask_fold kP isX m h
      = h ^^^ ((m % 2 ^ MAX_MOVES) <<< cond isX 0 MAX_MOVES) := by
  unfold zobrist_mask_fold
  have hcongr : ∀ (acc : Nat), ∀ i ∈ List.range MAX_MOVES,
      (if m.testBit i then acc ^^^ kP.piece (i / BOARD_SIZE) (i % BOARD_SIZE) isX
       else acc)
        = (if m.testBit i then acc ^^^ 2 ^ (i + cond isX 0 MAX_MOVES) else acc) := by
    intro acc i _
    have hkey : kP.piece (i / BOARD_SIZE) (i % BOARD_SIZE) isX
        = 2 ^ (i + cond isX 0 MAX_MOVES) := by
      unfold kP
      simp only
      congr 1
      unfold BOARD_SIZE MAX_MOVES
      unfold BOARD_SIZE
      omega
    rw [hkey]
  rw [foldl_congr_fn hcongr]
  exact fold_xor_range (cond isX 0 MAX_MOVES) MAX_MOVES h m

/-- The perspective component of the perfect-key hash. -/
def persBits (aiX : Bool) : Nat := cond aiX (2 ^ 18) (2 ^ 19)

lemma hash_kP_closed (s : SearchState) :
    hashOfState kP s
      = ((persBits s.aiX ^^^ ((s.board.x_pieces % 2 ^ MAX_MOVES) <<< 0))
          ^^^ ((s.board.o_pieces % 2 ^ MAX_MOVES) <<< MAX_MOVES))
        ^^^ cond s.low (2 ^ 20) 0 := by
  have hpers : kP.pers (stateChar s = 'x') = persBits s.aiX := by
    cases ha : s.aiX <;> simp [stateChar, ha, persBits, kP]
  unfold hashOfState
  by_cases hl : s.low
  · rw [if_pos hl, hl]
    unfold zobrist_toggle_turn zobrist_hash
    rw [hpers, mask_fold_kP, mask_fold_kP]
    rfl
  · rw [if_neg hl]
    have hl' : s.low = false := by simpa using hl
    rw [hl']
    unfold zobrist_hash
    rw [hpers, mask_fold_kP, mask_fold_kP]
    simp only [Bool.cond_false, Nat.xor_zero]
    rfl

/-- Bit-level read-out of the perfect-key hash of a well-formed state: bits
0–8 are the `'x'` mask, 9–17 the `'o'` mask, 18/19 the perspective, 20 the
side to move. -/
lemma hash_kP_testBit (s : SearchState) (hs : wfState s) (j : Nat) :
    (hashOfState kP s).testBit j =
      (if j < 9 then s.board.x_pieces.testBit j
       else if j < 18 then s.board.o_pieces.testBit (j - 9)
       else if j = 18 then s.aiX
       else if j = 19 then !s.aiX
       else if j = 20 then s.low
       else false) := by
  obtain ⟨hx, ho⟩ := hs
  have hxj : ∀ k, 9 ≤ k → s.board.x_pieces.testBit k = false := fun k hk =>
    Nat.testBit_lt_two_pow (lt_of_lt_of_le hx
      (Nat.pow_le_pow_right (by norm_num) hk))
  have hoj : ∀ k, 9 ≤ k → s.board.o_pieces.testBit k = false := fun k hk =>
    Nat.testBit_lt_two_pow (lt_of_lt_of_le ho
      (Nat.pow_le_pow_right (by norm_num) hk))
  rw [hash_kP_closed, Nat.mod_eq_of_lt hx, Nat.mod_eq_of_lt ho]
  rw [Nat.testBit_xor, Nat.testBit_xor, Nat.testBit_xor,
    Nat.testBit_shiftLeft, Nat.testBit_shiftLeft]
  simp only [show MAX_MOVES = 9 from rfl, Nat.sub_zero]
  cases haiX : s.aiX <;> cases hlow : s.low <;>
    simp only [persBits, Bool.cond_true, Bool.cond_false, Nat.testBit_two_pow,
      Nat.zero_testBit] <;>
  · by_cases h9 : j < 9
    · have e18 : decide (18 = j) = false := by simp; omega
      have e19 : decide (19 = j) = false := by simp; omega
      have e20 : decide (20 = j) = false := by simp; omega
      have ege : decide (9 ≤ j) = false := by simp; omega
      have ege' : decide (j ≥ 9) = false := ege
      simp [h9, e18, e19, e20, ege, ege']
    · by_cases h18 : j < 18
      · have e18 : decide (18 = j) = false := by simp; omega
        have e19 : decide (19 = j) = false := by simp; omega
        have e20 : decide (20 = j) = false := by simp; omega
        have ege : decide (9 ≤ j) = true := by simp; omega
        have ege' : decide (j ≥ 9) = true := ege
        simp [h9, h18, e18, e19, e20, ege, ege', hxj j (by omega)]
      · by_cases he18 : j = 18
        · subst he18
          simp [hxj 18 (by omega), hoj 9 (by omega)]
        · by_cases he19 : j = 19
          · subst he19
            simp [hxj 19 (by omega), hoj 10 (by omega)]
          · by_cases he20 : j = 20
            · subst he20
              simp [hxj 20 (by omega), hoj 11 (by omega)]
            · have e18 : decide (18 = j) = false := by simp; omega
              have e19 : decide (19 = j) = false := by simp; omega
              have e20 : decide (20 = j) = false := by simp; omega
              have ege : decide (9 ≤ j) = true := by simp; omega
              have ege' : decide (j ≥ 9) = true := ege
              simp [h9, h18, he18, he19, he20, e18, e19, e20, ege, ege',
                hxj j (by omega), hoj (j - 9) (by omega)]

/-- The perfect keys are injective on well-formed search states. -/
lemma hinj_kP : HInj kP := by
  intro s t hs ht heq
  have hb : ∀ j,
      (if j < 9 then s.board.x_pieces.testBit j
       else if j < 18 then s.board.o_pieces.testBit (j - 9)
       else if j = 18 then s.aiX
       else if j = 19 then !s.aiX
       else if j = 20 then s.low
       else false)
      = (if j < 9 then t.board.x_pieces.testBit j
         else if j < 18 then t.board.o_pieces.testBit (j - 9)
         else if j = 18 then t.aiX
         else if j = 19 then !t.aiX
         else if j = 20 then t.low
         else false) := by
    intro j
    have h := congrArg (Nat.testBit · j) heq
    simp only at h
    rwa [hash_kP_testBit s hs j, hash_kP_testBit t ht j] at h
  have haiX : s.aiX = t.aiX := by
    have h := hb 18
    norm_num at h
    exact h
  have hlow : s.low = t.low := by
    have h := hb 20
    norm_num at h
    exact h
  have hxeq : s.board.x_pieces = t.board.x_pieces := by
    apply Nat.eq_of_testBit_eq
    intro k
    by_cases hk : k < 9
    · have h := hb k
      simp only [if_pos hk] at h
      exact h
    · have h1 : s.board.x_pieces.testBit k = false :=
        Nat.testBit_lt_two_pow (lt_of_lt_of_le hs.1
          (Nat.pow_le_pow_right (by norm_num) (by unfold MAX_MOVES BOARD_SIZE; omega)))
      have h2 : t.board.x_pieces.testBit k = false :=
        Nat.testBit_lt_two_pow (lt_of_lt_of_le ht.1
          (Nat.pow_le_pow_right (by norm_num) (by unfold MAX_MOVES BOARD_SIZE; omega)))
      rw [h1, h2]
  have hoeq : s.board.o_pieces = t.board.o_pieces := by
    apply Nat.eq_of_testBit_eq
    intro k
    by_cases hk : k < 9
    · have h := hb (k + 9)
      simp only [if_neg (by omega : ¬(k + 9 < 9)),
        if_pos (by omega : k + 9 < 18), Nat.add_sub_cancel] at h
      exact h
    · have h1 : s.board.o_pieces.testBit k = false :=
        Nat.testBit_lt_two_pow (lt_of_lt_of_le hs.2
          (Nat.pow_le_pow_right (by norm_num) (by unfold MAX_MOVES BOARD_SIZE; omega)))
      have h2 : t.board.o_pieces.testBit k = false :=
        Nat.testBit_lt_two_pow (lt_of_lt_of_le ht.2
          (Nat.pow_le_pow_right (by norm_num) (by unfold MAX_MOVES BOARD_SIZE; omega)))
      rw [h1, h2]
  rcases s with ⟨⟨sx, so⟩, sa, sl⟩
  rcases t with ⟨⟨tx, tb⟩, ta, tl⟩
  simp only at haiX hlow hxeq hoeq
  subst haiX
  subst hlow
  subst hxeq
  subst hoeq
  rfl

/-! ## Concrete game values (kernel-evaluated narrow-window searches) -/

lemma searchLow_b1 :
    (miniMaxLow kP 9 ⟨1, 0⟩ 'x' (-1) 1
      (hashOfState kP ⟨⟨1, 0⟩, 'x' = 'x', true⟩) none).1 = 0 := by decide!

lemma searchLow_b16 :
    (miniMaxLow kP 9 ⟨16, 0⟩ 'x' (-1) 1
      (hashOfState kP ⟨⟨16, 0⟩, 'x' = 'x', true⟩) none).1 = 0 := by decide!

lemma searchHigh_o16 :
    (miniMaxHigh kP 9 ⟨16, 0⟩ 'o' (-1) 1
      (hashOfState kP ⟨⟨16, 0⟩, 'o' = 'x', false⟩) none).1 = 0 := by decide!

lemma searchHigh_x16 :
    (miniMaxHigh kP 9 ⟨0, 16⟩ 'x' (-1) 1
      (hashOfState kP ⟨⟨0, 16⟩, 'x' = 'x', false⟩) none).1 = 0 := by decide!

/-- The position after a first move in the centre is a draw for the side to
move (value read off a verified narrow-window alpha-beta search). -/
lemma mmValHigh_o_center : mmValHigh ⟨16, 0⟩ 'o' = 0 := by
  obtain ⟨-, hfs⟩ := (miniMax_spec kP hinj_kP 9).1 ⟨16, 0⟩ 'o' (-1) 1 none
    (by decide) (by decide) (TTValid_none kP)
    (by decide) (by decide) (by decide) (by decide) (by decide)
  rw [searchHigh_o16] at hfs
  have hss := mmValHigh_scoreSet (b := ⟨16, 0⟩) 'o' (by decide)
  unfold failSoft at hfs
  unfold scoreSet at hss
  omega

lemma mmValHigh_x_center : mmValHigh ⟨0, 16⟩ 'x' = 0 := by
  obtain ⟨-, hfs⟩ := (miniMax_spec kP hinj_kP 9).1 ⟨0, 16⟩ 'x' (-1) 1 none
    (by decide) (by decide) (TTValid_none kP)
    (by decide) (by decide) (by decide) (by decide) (by decide)
  rw [searchHigh_x16] at hfs
  have hss := mmValHigh_scoreSet (b := ⟨0, 16⟩) 'x' (by decide)
  unfold failSoft at hfs
  unfold scoreSet at hss
  omega

/-- The centre opening for `'x'` on the empty board has game value 0. -/
lemma mmValLow_center : mmValLow ⟨16, 0⟩ 'x' = 0 := by
  obtain ⟨-, hfs⟩ := (miniMax_spec kP hinj_kP 9).2 ⟨16, 0⟩ 'x' (-1) 1 none
    (by decide) (by decide) (TTValid_none kP)
    (by decide) (by decide) (by decide) (by decide) (by decide)
  rw [searchLow_b16] at hfs
  have hss := mmValLow_scoreSet (b := ⟨16, 0⟩) 'x' (by decide)
  unfold failSoft at hfs
  unfold scoreSet at hss
  omega

/-- The corner opening for `'x'` on the empty board also has game value 0. -/
lemma mmValLow_corner : mmValLow ⟨1, 0⟩ 'x' = 0 := by
  obtain ⟨-, hfs⟩ := (miniMax_spec kP hinj_kP 9).2 ⟨1, 0⟩ 'x' (-1) 1 none
    (by decide) (by decide) (TTValid_none kP)
    (by decide) (by decide) (by decide) (by decide) (by decide)
  rw [searchLow_b1] at hfs
  have hss := mmValLow_scoreSet (b := ⟨1, 0⟩) 'x' (by decide)
  unfold failSoft at hfs
  unfold scoreSet at hss
  omega

/-! ## Entry shortcuts and sentinel behaviour of `getAiMove` -/

/-- On the all-empty board `getAiMove` takes the centre shortcut: it returns
`(BOARD_SIZE/2, BOARD_SIZE/2) = (1, 1)` and passes the transposition-table
state through untouched, for every key table and every AI symbol. -/
lemma getAiMove_empty (ks : ZobristKeys) (tt : TTState) (ai : Char) :
    getAiMove ks tt ⟨0, 0⟩ ai = ((1, 1), tt) := by
  have hbs : boardScore ⟨0, 0⟩ ai = 1 := by
    unfold boardScore
    by_cases hp : ai = 'x'
    · simp only [if_pos hp]
      decide
    · simp only [if_neg hp]
      decide
  unfold getAiMove
  rw [if_neg (by decide : ¬((⟨0, 0⟩ : Bitboard).x_pieces &&&
      (⟨0, 0⟩ : Bitboard).o_pieces ≠ 0)),
    if_neg (by simp [hbs]), if_pos (by decide :
      (findEmptySpots ⟨0, 0⟩).length = MAX_MOVES)]
  rfl

lemma all_cells_mem_of_full_count {b : Bitboard}
    (h : (findEmptySpots b).length = MAX_MOVES) (r c : Nat)
    (hr : r < BOARD_SIZE) (hc : c < BOARD_SIZE) : (r, c) ∈ findEmptySpots b := by
  have hcount : (List.range MAX_MOVES).countP
      (fun i => !(b.x_pieces ||| b.o_pieces).testBit i) = MAX_MOVES := by
    rw [← emptyCount_eq_countP]
    exact h
  have hall := List.countP_eq_length.mp
    (by rw [hcount, List.length_range])
  rw [mem_findEmptySpots]
  refine ⟨hr, hc, ?_⟩
  have hmemr : r * BOARD_SIZE + c ∈ List.range MAX_MOVES := by
    rw [List.mem_range]
    unfold MAX_MOVES BOARD_SIZE at *
    omega
  have := hall _ hmemr
  simpa using this

/-- From every playable position (no overlap, game not decided) `selectMove`
names a listed empty cell. -/
lemma selectMove_real {b : Bitboard} {ai : Char} (hwf : wfBoard b)
    (hd : b.x_pieces &&& b.o_pieces = 0) (hst : boardScore b ai = 1) :
    ∃ mv ∈ findEmptySpots b, selectMove b ai = ((mv.1 : Int), (mv.2 : Int)) := by
  have hoverlap_cond : ¬(b.x_pieces &&& b.o_pieces ≠ 0) := by simp [hd]
  have hterm_cond : ¬(boardScore b ai ≠ 1) := by simp [hst]
  by_cases hmax : (findEmptySpots b).length = MAX_MOVES
  · refine ⟨(BOARD_SIZE / 2, BOARD_SIZE / 2),
      all_cells_mem_of_full_count hmax _ _ (by unfold BOARD_SIZE; omega)
        (by unfold BOARD_SIZE; omega), ?_⟩
    unfold selectMove
    rw [if_neg hoverlap_cond, if_neg hterm_cond, if_pos hmax]
  · by_cases hone : (findEmptySpots b).length = 1
    · obtain ⟨mv, hmveq⟩ := List.length_eq_one.mp hone
      refine ⟨mv, by rw [hmveq]; exact List.mem_cons_self mv [], ?_⟩
      unfold selectMove
      rw [if_neg hoverlap_cond, if_neg hterm_cond, if_neg hmax, if_pos hone, hmveq]
    · have hne := findEmptySpots_ne_nil hwf hst
      have hall : ∀ m ∈ findEmptySpots b,
          -100 ≤ childVal b ai m ∧ childVal b ai m ≤ 100 := by
        intro m hm
        have h : scoreSet (childVal b ai m) := childVal_scoreSet hwf hm
        unfold scoreSet at h
        omega
      have himp : ∃ m ∈ findEmptySpots b, (-101 : Int) < childVal b ai m := by
        obtain ⟨a, ha⟩ := List.exists_mem_of_ne_nil _ hne
        have h : scoreSet (childVal b ai a) := childVal_scoreSet hwf ha
        unfold scoreSet at h
        exact ⟨a, ha, by omega⟩
      obtain ⟨pre, mv, post, heq, hres, -, -, -⟩ :=
        selectFirstMax_spec b ai (findEmptySpots b) (-1, -1) (-101)
          hall (by omega) (by omega) himp
      refine ⟨mv, by rw [heq]; simp, ?_⟩
      unfold selectMove
      rw [if_neg hoverlap_cond, if_neg hterm_cond, if_neg hmax, if_neg hone]
      exact hres

lemma boardScore_ne_one_iff {b : Bitboard} (ai : Char) :
    boardScore b ai ≠ 1 ↔
      (bitboard_has_won b.x_pieces = true ∨ bitboard_has_won b.o_pieces = true ∨
        b.x_pieces ||| b.o_pieces = VALID_POSITIONS_MASK) := by
  unfold boardScore
  by_cases hp : ai = 'x' <;>
    by_cases hx : bitboard_has_won b.x_pieces <;>
    by_cases ho : bitboard_has_won b.o_pieces <;>
    by_cases hf : b.x_pieces ||| b.o_pieces = VALID_POSITIONS_MASK <;>
    simp_all

/-! ## Claim C7: empty-board centre shortcut -/

/-- **C7.** For every key table, table state and AI symbol, `getAiMove` on the
completely empty position returns the centre cell
`(BOARD_SIZE / 2, BOARD_SIZE / 2) = (1, 1)` with the transposition-table state
passed through unchanged — the shortcut fires before the search loop and the
table is neither probed nor written. -/
theorem empty_board_center (ks : ZobristKeys) (tt : TTState) (ai : Char) :
    getAiMove ks tt ⟨0, 0⟩ ai =
      (((((BOARD_SIZE : Nat) / 2 : Nat) : Int),
        (((BOARD_SIZE : Nat) / 2 : Nat) : Int)), tt) :=
  getAiMove_empty ks tt ai

/-! ## Claim C2: caching never changes the selected move -/

/-- **C2.** For every position and AI symbol, running `getAiMove` with the
transposition table disabled (capacity 0) selects the same move as running it
with a freshly allocated empty table of any capacity, provided the Zobrist
keys are collision-free on well-formed states. -/
theorem tt_disabled_same_move (ks : ZobristKeys) (n : Nat) (b : Bitboard)
    (ai : Char) (hinj : HInj ks) (hwf : wfBoard b) :
    (getAiMove ks (transposition_table_init 0 true) b ai).1
      = (getAiMove ks (transposition_table_init n true) b ai).1 := by
  rw [(getAiMove_spec ks hinj (TTValid_init ks 0 true) b ai hwf).1,
    (getAiMove_spec ks hinj (TTValid_init ks n true) b ai hwf).1]

/-- **C2 witness.** The equality instantiated with the perfect keys, table
capacity 1024, and a one-`'x'` position. -/
theorem tt_disabled_same_move_witness :
    (getAiMove kP (transposition_table_init 0 true) ⟨1, 0⟩ 'x').1
      = (getAiMove kP (transposition_table_init 1024 true) ⟨1, 0⟩ 'x').1 :=
  tt_disabled_same_move kP 1024 ⟨1, 0⟩ 'x' hinj_kP (by decide)

/-! ## Claim C3: the "no move" sentinel -/

/-- **C3.** `getAiMove` returns the sentinel `(-1, -1)` exactly when the two
occupancy masks overlap or the position is already terminal (a completed line
for either side, or a full board); from every valid non-terminal position it
returns a listed empty cell. -/
theorem getAiMove_sentinel_iff (ks : ZobristKeys) (hinj : HInj ks)
    {tt : TTState} (htt : TTValid ks tt) (b : Bitboard) (ai : Char)
    (hwf : wfBoard b) :
    ((getAiMove ks tt b ai).1 = (-1, -1) ↔
      (b.x_pieces &&& b.o_pieces ≠ 0 ∨ bitboard_has_won b.x_pieces = true ∨
        bitboard_has_won b.o_pieces = true ∨
        b.x_pieces ||| b.o_pieces = VALID_POSITIONS_MASK)) ∧
    (b.x_pieces &&& b.o_pieces = 0 → boardScore b ai = 1 →
      ∃ mv ∈ findEmptySpots b,
        (getAiMove ks tt b ai).1 = ((mv.1 : Int), (mv.2 : Int))) := by
  have hsel := (getAiMove_spec ks hinj htt b ai hwf).1
  constructor
  · rw [hsel]
    by_cases hov : b.x_pieces &&& b.o_pieces ≠ 0
    · constructor
      · intro _
        exact Or.inl hov
      · intro _
        unfold selectMove
        rw [if_pos hov]
    · push_neg at hov
      by_cases hterm : boardScore b ai ≠ 1
      · constructor
        · intro _
          exact Or.inr ((boardScore_ne_one_iff ai).mp hterm)
        · intro _
          unfold selectMove
          rw [if_neg (by simp [hov]), if_pos hterm]
      · push_neg at hterm
        obtain ⟨mv, hmem, heq⟩ := selectMove_real hwf hov hterm
        constructor
        · intro hcontra
          rw [heq] at hcontra
          have h1 := congrArg Prod.fst hcontra
          simp only at h1
          have := Int.natCast_nonneg mv.1
          omega
        · intro hdisj
          exfalso
          rcases hdisj with h | h
          · exact h hov
          · exact ((boardScore_ne_one_iff ai).mpr h) hterm
  · intro hov hst
    obtain ⟨mv, hmem, heq⟩ := selectMove_real hwf hov hst
    exact ⟨mv, hmem, by rw [hsel]; exact heq⟩

/-- **C3 witness.** The sentinel characterisation at the position with an
`'x'` at cell 0 and an `'o'` at cell 1 (valid and non-terminal, so the right
side of the iff is false and a real move is produced). -/
theorem getAiMove_sentinel_iff_witness :
    (((getAiMove kP none ⟨1, 2⟩ 'x').1 = (-1, -1) ↔
      ((⟨1, 2⟩ : Bitboard).x_pieces &&& (⟨1, 2⟩ : Bitboard).o_pieces ≠ 0 ∨
        bitboard_has_won (⟨1, 2⟩ : Bitboard).x_pieces = true ∨
        bitboard_has_won (⟨1, 2⟩ : Bitboard).o_pieces = true ∨
        (⟨1, 2⟩ : Bitboard).x_pieces ||| (⟨1, 2⟩ : Bitboard).o_pieces
          = VALID_POSITIONS_MASK)) ∧
    ((⟨1, 2⟩ : Bitboard).x_pieces &&& (⟨1, 2⟩ : Bitboard).o_pieces = 0 →
      boardScore ⟨1, 2⟩ 'x' = 1 →
      ∃ mv ∈ findEmptySpots ⟨1, 2⟩,
        (getAiMove kP none ⟨1, 2⟩ 'x').1 = ((mv.1 : Int), (mv.2 : Int)))) :=
  getAiMove_sentinel_iff kP hinj_kP (TTValid_none kP) ⟨1, 2⟩ 'x' (by decide)

/-! ## Claim C4: perfect self-play always ties -/

lemma selfPlayGame_tie (ks : ZobristKeys) (hinj : HInj ks) {tt : TTState}
    (htt : TTValid ks tt) (firstX : Bool) :
    (selfPlayGame ks tt firstX).1 = GameOutcome.tie ∧
      TTValid ks (selfPlayGame ks tt firstX).2 := by
  unfold selfPlayGame
  rw [selfPlayLoop]
  rw [if_neg (by decide), if_neg (by decide), if_neg (by decide)]
  simp only [getAiMove_empty]
  rw [if_neg (by decide : ¬((1 : Int) < 0 ∨ (1 : Int) < 0))]
  cases firstX
  · exact selfPlay_tie_loop ks hinj MAX_MOVES ⟨0, 16⟩ 'x' tt (by decide)
      (by decide) (by decide) (by decide) (Or.inl rfl) htt mmValHigh_x_center
  · exact selfPlay_tie_loop ks hinj MAX_MOVES ⟨16, 0⟩ 'o' tt (by decide)
      (by decide) (by decide) (by decide) (Or.inr rfl) htt mmValHigh_o_center

/-- **C4.** Any number of consecutive self-play games in which both sides
choose their moves with `getAiMove` from the empty 3×3 board — either symbol
moving first in each game, the transposition table reused across games — all
end in a tie, and the table stays sound throughout.  (Collision-free keys are
assumed; with colliding keys a cached score could belong to a different
position.) -/
theorem perfect_selfplay_always_ties (ks : ZobristKeys) (hinj : HInj ks) :
    ∀ (firsts : List Bool) (tt : TTState), TTValid ks tt →
      (selfPlayGames ks firsts tt).1
        = List.replicate firsts.length GameOutcome.tie ∧
      TTValid ks (selfPlayGames ks firsts tt).2 := by
  intro firsts
  induction firsts with
  | nil =>
    intro tt htt
    exact ⟨rfl, htt⟩
  | cons f rest ih =>
    intro tt htt
    obtain ⟨h1, h2⟩ := selfPlayGame_tie ks hinj htt f
    obtain ⟨h3, h4⟩ := ih (selfPlayGame ks tt f).2 h2
    simp only [selfPlayGames]
    refine ⟨?_, h4⟩
    rw [h1, h3, List.length_cons, List.replicate_succ]

/-- **C4 witness.** Two consecutive games (first `'x'` opens, then `'o'`
opens) with the perfect keys and caching disabled: both are ties. -/
theorem perfect_selfplay_always_ties_witness :
    (selfPlayGames kP [true, false] none).1
      = List.replicate ([true, false] : List Bool).length GameOutcome.tie ∧
      TTValid kP (selfPlayGames kP [true, false] none).2 :=
  perfect_selfplay_always_ties kP hinj_kP [true, false] none (TTValid_none kP)

/-! ## Claim C5: enumeration order and tie-breaking -/

lemma findEmptySpots_sorted (b : Bitboard) :
    List.Pairwise
      (fun m1 m2 : Nat × Nat =>
        m1.1 * BOARD_SIZE + m1.2 < m2.1 * BOARD_SIZE + m2.2)
      (findEmptySpots b) := by
  unfold findEmptySpots
  apply List.Pairwise.filterMap _ ?_ (List.pairwise_lt_range MAX_MOVES)
  intro i j hij mi hmi mj hmj
  by_cases h1 : COMPL64 (b.x_pieces ||| b.o_pieces) &&& VALID_POSITIONS_MASK
      &&& (1 <<< i) ≠ 0
  · by_cases h2 : COMPL64 (b.x_pieces ||| b.o_pieces) &&& VALID_POSITIONS_MASK
        &&& (1 <<< j) ≠ 0
    · rw [if_pos h1] at hmi
      rw [if_pos h2] at hmj
      simp only [Option.mem_some_iff] at hmi hmj
      subst hmi
      subst hmj
      simp only
      unfold BOARD_SIZE
      omega
    · rw [if_neg h2] at hmj
      simp at hmj
  · rw [if_neg h1] at hmi
    simp at hmi

/-- **C5 (amended).** `getAiMove` enumerates the empty cells in strictly
increasing bit-index (row-major) order, and whenever the root scan actually
runs (valid position, game undecided, between 2 and 8 empty cells) the
selected move is the first move of that enumeration achieving the best score:
it attains the position value, every earlier move scores strictly worse, and
no later move scores better.  (On the 9-empty and 1-empty positions the entry
shortcuts bypass the scan, and the original first-found claim fails — see the
counterexample.) -/
theorem root_enumeration_first_argmax (ks : ZobristKeys) (hinj : HInj ks)
    {tt : TTState} (htt : TTValid ks tt) (b : Bitboard) (ai : Char)
    (hwf : wfBoard b) (hd : b.x_pieces &&& b.o_pieces = 0)
    (hst : boardScore b ai = 1)
    (h2 : 2 ≤ (findEmptySpots b).length) (h8 : (findEmptySpots b).length ≤ 8) :
    List.Pairwise
      (fun m1 m2 : Nat × Nat =>
        m1.1 * BOARD_SIZE + m1.2 < m2.1 * BOARD_SIZE + m2.2)
      (findEmptySpots b) ∧
    ∃ pre mv post, findEmptySpots b = pre ++ mv :: post ∧
      (getAiMove ks tt b ai).1 = ((mv.1 : Int), (mv.2 : Int)) ∧
      childVal b ai mv = mmValHigh b ai ∧
      (∀ m' ∈ pre, childVal b ai m' < childVal b ai mv) ∧
      (∀ m' ∈ post, childVal b ai m' ≤ childVal b ai mv) := by
  refine ⟨findEmptySpots_sorted b, ?_⟩
  have hne := findEmptySpots_ne_nil hwf hst
  have hall : ∀ m ∈ findEmptySpots b,
      -100 ≤ childVal b ai m ∧ childVal b ai m ≤ 100 := by
    intro m hm
    have h : scoreSet (childVal b ai m) := childVal_scoreSet hwf hm
    unfold scoreSet at h
    omega
  have himp : ∃ m ∈ findEmptySpots b, (-101 : Int) < childVal b ai m := by
    obtain ⟨a, ha⟩ := List.exists_mem_of_ne_nil _ hne
    have h : scoreSet (childVal b ai a) := childVal_scoreSet hwf ha
    unfold scoreSet at h
    exact ⟨a, ha, by omega⟩
  obtain ⟨pre, mv, post, heq, hres, hgt, hpre, hpost⟩ :=
    selectFirstMax_spec b ai (findEmptySpots b) (-1, -1) (-101)
      hall (by omega) (by omega) himp
  have hmvmem : mv ∈ findEmptySpots b := by
    rw [heq]
    simp
  have hmax : ∀ m' ∈ findEmptySpots b, childVal b ai m' ≤ childVal b ai mv := by
    intro m' hm'
    rw [heq] at hm'
    rcases List.mem_append.mp hm' with h | h
    · exact le_of_lt (hpre m' h)
    · rcases List.mem_cons.mp h with h' | h'
      · subst h'
        exact le_refl _
      · exact hpost m' h'
  refine ⟨pre, mv, post, heq, ?_, childVal_eq_of_max hwf hst hmvmem hmax,
    hpre, hpost⟩
  rw [(getAiMove_spec ks hinj htt b ai hwf).1]
  unfold selectMove
  rw [if_neg (by simp [hd]), if_neg (by simp [hst]),
    if_neg (by unfold MAX_MOVES BOARD_SIZE; omega),
    if_neg (by omega)]
  exact hres

/-- **C5 witness.** The amended property instantiated at the position with an
`'x'` at cell 0 and an `'o'` at cell 1 (7 empty cells), perfect keys, caching
disabled. -/
theorem root_enumeration_first_argmax_witness :
    (List.Pairwise
      (fun m1 m2 : Nat × Nat =>
        m1.1 * BOARD_SIZE + m1.2 < m2.1 * BOARD_SIZE + m2.2)
      (findEmptySpots ⟨1, 2⟩) ∧
    ∃ pre mv post, findEmptySpots ⟨1, 2⟩ = pre ++ mv :: post ∧
      (getAiMove kP none ⟨1, 2⟩ 'x').1 = ((mv.1 : Int), (mv.2 : Int)) ∧
      childVal ⟨1, 2⟩ 'x' mv = mmValHigh ⟨1, 2⟩ 'x' ∧
      (∀ m' ∈ pre, childVal ⟨1, 2⟩ 'x' m' < childVal ⟨1, 2⟩ 'x' mv) ∧
      (∀ m' ∈ post, childVal ⟨1, 2⟩ 'x' m' ≤ childVal ⟨1, 2⟩ 'x' mv)) :=
  root_enumeration_first_argmax kP hinj_kP (TTValid_none kP) ⟨1, 2⟩ 'x'
    (by decide) (by decide) (by decide) (by decide) (by decide)

/-- **C5 counterexample.** On the empty board the first enumerated empty cell
is `(0, 0)` and its move has the same (optimal) score 0 as the centre
`(1, 1)`, yet `getAiMove` returns the centre: among moves achieving the same
best score the engine does not always return the first one found in
enumeration order (the centre shortcut bypasses the scan). -/
theorem root_tiebreak_counterexample :
    (getAiMove kP none ⟨0, 0⟩ 'x').1 = (1, 1) ∧
    findEmptySpots ⟨0, 0⟩
      = [(0, 0), (0, 1), (0, 2), (1, 0), (1, 1), (1, 2), (2, 0), (2, 1),
         (2, 2)] ∧
    childVal ⟨0, 0⟩ 'x' (0, 0) = 0 ∧ childVal ⟨0, 0⟩ 'x' (1, 1) = 0 ∧
    ((0, 0) : Nat × Nat) ≠ (1, 1) := by
  refine ⟨?_, by decide, ?_, ?_, by decide⟩
  · rw [getAiMove_empty]
  · have hb : bitboard_make_move ⟨0, 0⟩ 0 0 'x' = ⟨1, 0⟩ := by decide
    show mmValLow (bitboard_make_move ⟨0, 0⟩ 0 0 'x') 'x' = 0
    rw [hb]
    exact mmValLow_corner
  · have hb : bitboard_make_move ⟨0, 0⟩ 1 1 'x' = ⟨16, 0⟩ := by decide
    show mmValLow (bitboard_make_move ⟨0, 0⟩ 1 1 'x') 'x' = 0
    rw [hb]
    exact mmValLow_center

/-! ## Claim C10: engine scores stay in the three-value range -/

/-- Every occupied entry of the table stores a score in `{-100, 0, 100}`. -/
def ttScores : TTState → Prop
  | none => True
  | some t => ∀ i, (t.entries i).occupied = true → scoreSet (t.entries i).score

lemma ttScores_none : ttScores none := trivial

lemma ttScores_init (n : Nat) (ok : Bool) :
    ttScores (transposition_table_init n ok) := by
  unfold transposition_table_init
  split_ifs
  · trivial
  · intro i hocc
    cases hocc
  · trivial

lemma ttScores_store {tt : TTState} (h : ttScores tt) {score : Int}
    (hs : scoreSet score) (hash : Nat) (ty : TranspositionTableNodeType) :
    ttScores (transposition_table_store tt hash score ty) := by
  unfold scoreSet at hs
  cases tt with
  | none => trivial
  | some t =>
    intro i hocc
    simp only [transposition_table_store] at hocc ⊢
    by_cases hi : i = hash &&& t.mask
    · simp only [if_pos hi]
      show scoreSet (toInt16 score)
      rw [toInt16_eq_self (by omega) (by omega)]
      unfold scoreSet
      omega
    · simp only [if_neg hi] at hocc ⊢
      exact h i hocc

lemma probe_scoreSet {tt : TTState} (h : ttScores tt) {hash : Nat}
    {alpha beta r : Int}
    (hp : transposition_table_probe tt hash alpha beta = some r) :
    scoreSet r := by
  cases tt with
  | none => cases hp
  | some t =>
    simp only [transposition_table_probe] at hp
    by_cases h1 : (t.entries (hash &&& t.mask)).occupied = false
    · rw [if_pos h1] at hp
      cases hp
    · rw [if_neg h1] at hp
      by_cases h2 : (t.entries (hash &&& t.mask)).hash ≠ hash
      · rw [if_pos h2] at hp
        cases hp
      · rw [if_neg h2] at hp
        have hocc : (t.entries (hash &&& t.mask)).occupied = true := by
          revert h1
          cases (t.entries (hash &&& t.mask)).occupied <;> simp
        by_cases h3 : (t.entries (hash &&& t.mask)).ntype = .EXACT ∨
            ((t.entries (hash &&& t.mask)).ntype = .LOWERBOUND ∧
              (t.entries (hash &&& t.mask)).score ≥ beta) ∨
            ((t.entries (hash &&& t.mask)).ntype = .UPPERBOUND ∧
              (t.entries (hash &&& t.mask)).score ≤ alpha)
        · rw [if_pos h3] at hp
          have := Option.some.inj hp
          rw [← this]
          exact h _ hocc
        · rw [if_neg h3] at hp
          cases hp

lemma scoresHighLoop (ks : ZobristKeys) (b : Bitboard) (ai : Char)
    (beta : Int) (hash : Nat)
    (recLow : Bitboard → Int → Int → Nat → TTState → SearchResult)
    (Hrec : ∀ m ∈ findEmptySpots b, ∀ (a : Int) (h : Nat) (t : TTState),
      ttScores t →
      scoreSet (recLow (bitboard_make_move b m.1 m.2 ai) a beta h t).1 ∧
      ttScores (recLow (bitboard_make_move b m.1 m.2 ai) a beta h t).2) :
    ∀ (moves : List (Nat × Nat)), (∀ m ∈ moves, m ∈ findEmptySpots b) →
      ∀ (best alpha : Int) (tt : TTState), ttScores tt →
      (scoreSet best ∨ (best = -101 ∧ moves ≠ [])) →
      scoreSet (miniMaxHighLoop recLow ks b ai beta hash moves best alpha tt).1 ∧
      ttScores (miniMaxHighLoop recLow ks b ai beta hash moves best alpha tt).2 := by
  intro moves
  induction moves with
  | nil =>
    intro _ best alpha tt htt hbest
    rw [miniMaxHighLoop]
    rcases hbest with h | ⟨-, hne⟩
    · exact ⟨h, htt⟩
    · exact absurd rfl hne
  | cons m rest ih =>
    intro hmv best alpha tt htt hbest
    rw [miniMaxHighLoop]
    set RES := recLow (bitboard_make_move b m.1 m.2 ai) alpha beta
      (zobrist_toggle_turn ks (zobrist_toggle ks hash m.1 m.2 ai)) tt with hRES
    obtain ⟨hs, ht⟩ := Hrec m (hmv m (by simp)) alpha
      (zobrist_toggle_turn ks (zobrist_toggle ks hash m.1 m.2 ai)) tt htt
    rw [← hRES] at hs ht
    have hsB' : scoreSet (if RES.1 > best then RES.1 else best) := by
      unfold scoreSet at *
      rcases hbest with hsb | ⟨hb, -⟩ <;> split_ifs with hgt <;> omega
    by_cases h100 : (if RES.1 > best then RES.1 else best) = 100
    · rw [if_pos h100]
      exact ⟨hsB', ht⟩
    · rw [if_neg h100]
      by_cases hcut : beta ≤ (if RES.1 > alpha then RES.1 else alpha)
      · rw [if_pos hcut]
        exact ⟨hsB', ht⟩
      · rw [if_neg hcut]
        exact ih (fun m' hm' => hmv m' (by simp [hm'])) _ _ _ ht (Or.inl hsB')

lemma scoresLowLoop (ks : ZobristKeys) (b : Bitboard) (opp : Char)
    (alpha : Int) (hash : Nat)
    (recHigh : Bitboard → Int → Int → Nat → TTState → SearchResult)
    (Hrec : ∀ m ∈ findEmptySpots b, ∀ (bt : Int) (h : Nat) (t : TTState),
      ttScores t →
      scoreSet (recHigh (bitboard_make_move b m.1 m.2 opp) alpha bt h t).1 ∧
      ttScores (recHigh (bitboard_make_move b m.1 m.2 opp) alpha bt h t).2) :
    ∀ (moves : List (Nat × Nat)), (∀ m ∈ moves, m ∈ findEmptySpots b) →
      ∀ (best beta : Int) (tt : TTState), ttScores tt →
      (scoreSet best ∨ (best = 101 ∧ moves ≠ [])) →
      scoreSet (miniMaxLowLoop recHigh ks b opp alpha hash moves best beta tt).1 ∧
      ttScores (miniMaxLowLoop recHigh ks b opp alpha hash moves best beta tt).2 := by
  intro moves
  induction moves with
  | nil =>
    intro _ best beta tt htt hbest
    rw [miniMaxLowLoop]
    rcases hbest with h | ⟨-, hne⟩
    · exact ⟨h, htt⟩
    · exact absurd rfl hne
  | cons m rest ih =>
    intro hmv best beta tt htt hbest
    rw [miniMaxLowLoop]
    set RES := recHigh (bitboard_make_move b m.1 m.2 opp) alpha beta
      (zobrist_toggle_turn ks (zobrist_toggle ks hash m.1 m.2 opp)) tt with hRES
    obtain ⟨hs, ht⟩ := Hrec m (hmv m (by simp)) beta
      (zobrist_toggle_turn ks (zobrist_toggle ks hash m.1 m.2 opp)) tt htt
    rw [← hRES] at hs ht
    have hsB' : scoreSet (if RES.1 < best then RES.1 else best) := by
      unfold scoreSet at *
      rcases hbest with hsb | ⟨hb, -⟩ <;> split_ifs with hgt <;> omega
    by_cases h100 : (if RES.1 < best then RES.1 else best) = -100
    · rw [if_pos h100]
      exact ⟨hsB', ht⟩
    · rw [if_neg h100]
      by_cases hcut : (if RES.1 < beta then RES.1 else beta) ≤ alpha
      · rw [if_pos hcut]
        exact ⟨hsB', ht⟩
      · rw [if_neg hcut]
        exact ih (fun m' hm' => hmv m' (by simp [hm'])) _ _ _ ht (Or.inl hsB')

/-- Score-range specification of the maximize ply. -/
def ScoresHigh (ks : ZobristKeys) (fuel : Nat) : Prop :=
  ∀ b ai alpha beta hash tt, wfBoard b → ttScores tt →
    scoreSet (miniMaxHigh ks fuel b ai alpha beta hash tt).1 ∧
    ttScores (miniMaxHigh ks fuel b ai alpha beta hash tt).2

/-- Score-range specification of the minimize ply. -/
def ScoresLow (ks : ZobristKeys) (fuel : Nat) : Prop :=
  ∀ b ai alpha beta hash tt, wfBoard b → ttScores tt →
    scoreSet (miniMaxLow ks fuel b ai alpha beta hash tt).1 ∧
    ttScores (miniMaxLow ks fuel b ai alpha beta hash tt).2

lemma scores_spec (ks : ZobristKeys) :
    ∀ fuel, ScoresHigh ks fuel ∧ ScoresLow ks fuel := by
  intro fuel
  induction fuel with
  | zero =>
    constructor <;> intro b ai alpha beta hash tt hwf htt <;>
      exact ⟨Or.inr (Or.inl rfl), htt⟩
  | succ f ih =>
    constructor
    · intro b ai alpha beta hash tt hwf htt
      rw [miniMaxHigh]
      cases hpr : transposition_table_probe tt hash alpha beta with
      | some r =>
        exact ⟨probe_scoreSet htt hpr, htt⟩
      | none =>
        by_cases hst : boardScore b ai ≠ 1
        · rw [if_pos hst]
          have hbs := boardScore_scoreSet hst
          exact ⟨hbs, ttScores_store htt hbs hash .EXACT⟩
        · rw [if_neg hst]
          push_neg at hst
          have hne := findEmptySpots_ne_nil hwf hst
          have hloop := scoresHighLoop ks b ai beta hash
            (fun b' a bta h t => miniMaxLow ks f b' ai a bta h t)
            (by
              intro m hm a h t ht0
              have hshape := mem_findEmptySpots_shape hm
              exact ih.2 (bitboard_make_move b m.1 m.2 ai) ai a beta h t
                (wfBoard_make ai hwf hshape.1 hshape.2.1) ht0)
            (findEmptySpots b) (fun _ h => h) (-101) alpha tt htt
            (Or.inr ⟨rfl, hne⟩)
          exact ⟨hloop.1, ttScores_store hloop.2 hloop.1 hash _⟩
    · intro b ai alpha beta hash tt hwf htt
      rw [miniMaxLow]
      cases hpr : transposition_table_probe tt hash alpha beta with
      | some r =>
        exact ⟨probe_scoreSet htt hpr, htt⟩
      | none =>
        by_cases hst : boardScore b ai ≠ 1
        · rw [if_pos hst]
          have hbs := boardScore_scoreSet hst
          exact ⟨hbs, ttScores_store htt hbs hash .EXACT⟩
        · rw [if_neg hst]
          push_neg at hst
          have hne := findEmptySpots_ne_nil hwf hst
          have hloop := scoresLowLoop ks b (if ai = 'x' then 'o' else 'x') alpha
            hash (fun b' a bta h t => miniMaxHigh ks f b' ai a bta h t)
            (by
              intro m hm bt h t ht0
              have hshape := mem_findEmptySpots_shape hm
              exact ih.1 (bitboard_make_move b m.1 m.2
                  (if ai = 'x' then 'o' else 'x')) ai alpha bt h t
                (wfBoard_make _ hwf hshape.1 hshape.2.1) ht0)
            (findEmptySpots b) (fun _ h => h) 101 beta tt htt
            (Or.inr ⟨rfl, hne⟩)
          exact ⟨hloop.1, ttScores_store hloop.2 hloop.1 hash _⟩

/-- **C10.** Starting from any transposition table whose occupied entries all
hold scores in `{-100, 0, 100}`, both search plies return a score in
`{-100, 0, 100}` and leave the table with the invariant intact; in particular
the `int16_t` truncation in `transposition_table_store` is the identity on
every engine-produced score. -/
theorem engine_scores_in_range (ks : ZobristKeys) (fuel : Nat) (b : Bitboard)
    (ai : Char) (alpha beta : Int) (hash : Nat) (tt : TTState)
    (hwf : wfBoard b) (hts : ttScores tt) :
    (scoreSet (miniMaxHigh ks fuel b ai alpha beta hash tt).1 ∧
      ttScores (miniMaxHigh ks fuel b ai alpha beta hash tt).2 ∧
      toInt16 (miniMaxHigh ks fuel b ai alpha beta hash tt).1
        = (miniMaxHigh ks fuel b ai alpha beta hash tt).1) ∧
    (scoreSet (miniMaxLow ks fuel b ai alpha beta hash tt).1 ∧
      ttScores (miniMaxLow ks fuel b ai alpha beta hash tt).2 ∧
      toInt16 (miniMaxLow ks fuel b ai alpha beta hash tt).1
        = (miniMaxLow ks fuel b ai alpha beta hash tt).1) := by
  obtain ⟨hH, hL⟩ := scores_spec ks fuel
  obtain ⟨h1, h2⟩ := hH b ai alpha beta hash tt hwf hts
  obtain ⟨h3, h4⟩ := hL b ai alpha beta hash tt hwf hts
  have e1 : toInt16 (miniMaxHigh ks fuel b ai alpha beta hash tt).1
      = (miniMaxHigh ks fuel b ai alpha beta hash tt).1 := by
    unfold scoreSet at h1
    exact toInt16_eq_self (by omega) (by omega)
  have e3 : toInt16 (miniMaxLow ks fuel b ai alpha beta hash tt).1
      = (miniMaxLow ks fuel b ai alpha beta hash tt).1 := by
    unfold scoreSet at h3
    exact toInt16_eq_self (by omega) (by omega)
  exact ⟨⟨h1, h2, e1⟩, ⟨h3, h4, e3⟩⟩

/-- **C10 witness.** The invariant instantiated with the perfect keys at a
two-piece position, full fuel, the standard root window and an empty
(disabled) table. -/
theorem engine_scores_in_range_witness :
    (scoreSet (miniMaxHigh kP 9 ⟨1, 2⟩ 'x' (-101) 101 0 none).1 ∧
      ttScores (miniMaxHigh kP 9 ⟨1, 2⟩ 'x' (-101) 101 0 none).2 ∧
      toInt16 (miniMaxHigh kP 9 ⟨1, 2⟩ 'x' (-101) 101 0 none).1
        = (miniMaxHigh kP 9 ⟨1, 2⟩ 'x' (-101) 101 0 none).1) ∧
    (scoreSet (miniMaxLow kP 9 ⟨1, 2⟩ 'x' (-101) 101 0 none).1 ∧
      ttScores (miniMaxLow kP 9 ⟨1, 2⟩ 'x' (-101) 101 0 none).2 ∧
      toInt16 (miniMaxLow kP 9 ⟨1, 2⟩ 'x' (-101) 101 0 none).1
        = (miniMaxLow kP 9 ⟨1, 2⟩ 'x' (-101) 101 0 none).1) :=
  engine_scores_in_range kP 9 ⟨1, 2⟩ 'x' (-101) 101 0 none (by decide)
    ttScores_none

/-! ## Claim C6: graceful degradation of the disabled table -/

/-- **C1 witness.** The hit characterisation at a concrete one-slot table
holding an occupied `LOWER_BOUND` entry of score 100 under hash 5, probed with
the same hash and window `(-1, 1)`. -/
theorem probe_hit_iff_witness :
    transposition_table_probe
      (some ⟨0, fun _ => ⟨5, 100, 0, .LOWERBOUND, true⟩⟩) 5 (-1) 1 =
      (if (⟨5, 100, 0, .LOWERBOUND, true⟩ : TranspositionTableEntry).occupied
            = true ∧
          (⟨5, 100, 0, .LOWERBOUND, true⟩ : TranspositionTableEntry).hash = 5 ∧
          ((⟨5, 100, 0, .LOWERBOUND, true⟩ :
              TranspositionTableEntry).ntype = .EXACT ∨
            ((⟨5, 100, 0, .LOWERBOUND, true⟩ :
                TranspositionTableEntry).ntype = .LOWERBOUND ∧
              (⟨5, 100, 0, .LOWERBOUND, true⟩ :
                TranspositionTableEntry).score ≥ 1) ∨
            ((⟨5, 100, 0, .LOWERBOUND, true⟩ :
                TranspositionTableEntry).ntype = .UPPERBOUND ∧
              (⟨5, 100, 0, .LOWERBOUND, true⟩ :
                TranspositionTableEntry).score ≤ -1))
        then some (⟨5, 100, 0, .LOWERBOUND, true⟩ :
          TranspositionTableEntry).score
        else none) :=
  probe_hit_iff ⟨0, fun _ => ⟨5, 100, 0, .LOWERBOUND, true⟩⟩ 5 (-1) 1
    ⟨5, 100, 0, .LOWERBOUND, true⟩ rfl

/-- **C6.** Capacity 0, and a failed allocation at any capacity, both leave
the table in the disabled state; in that state every probe misses and every
store is a no-op, and the engine still produces a real move from every
playable position. -/
theorem tt_disabled_graceful :
    transposition_table_init 0 true = none ∧
    (∀ n, transposition_table_init n false = none) ∧
    (∀ (hash : Nat) (alpha beta : Int),
      transposition_table_probe none hash alpha beta = Option.none) ∧
    (∀ (hash : Nat) (score : Int) (ty : TranspositionTableNodeType),
      transposition_table_store none hash score ty = none) ∧
    (∀ (ks : ZobristKeys) (b : Bitboard) (ai : Char), HInj ks → wfBoard b →
      b.x_pieces &&& b.o_pieces = 0 → boardScore b ai = 1 →
      ∃ mv ∈ findEmptySpots b,
        (getAiMove ks none b ai).1 = ((mv.1 : Int), (mv.2 : Int))) := by
  refine ⟨rfl, ?_, ?_, ?_, ?_⟩
  · intro n
    unfold transposition_table_init
    split_ifs <;> first | rfl | contradiction
  · intro hash alpha beta
    rfl
  · intro hash score ty
    rfl
  · intro ks b ai hinj hwf hd hst
    obtain ⟨mv, hmem, heq⟩ := selectMove_real hwf hd hst
    refine ⟨mv, hmem, ?_⟩
    rw [(getAiMove_spec ks hinj (TTValid_none ks) b ai hwf).1]
    exact heq

/-- **C6 witness.** The disabled-state behaviour together with a real move
produced at a concrete playable position with caching disabled. -/
theorem tt_disabled_graceful_witness :
    transposition_table_init 0 true = none ∧
    (∃ mv ∈ findEmptySpots ⟨1, 2⟩,
      (getAiMove kP none ⟨1, 2⟩ 'x').1 = ((mv.1 : Int), (mv.2 : Int))) :=
  ⟨tt_disabled_graceful.1,
    tt_disabled_graceful.2.2.2.2 kP ⟨1, 2⟩ 'x' hinj_kP (by decide) (by decide)
      (by decide)⟩

end HyperPrune
